import Mathlib

/-!
# Verification of the `ernst` Ising spin-glass engine

Shallow embedding of `src/hamiltonian.rs` and `src/solvers.rs`.

Modelling conventions:
* `f32` energies are embedded as exact rationals (`ℚ`).  Every concrete
  input used in a counterexample or witness involves only values on which
  `f32` arithmetic is itself exact (small dyadic rationals), so the rational
  model agrees with the machine computation there.
* Rust panics (`unwrap` on `None`, `assert_eq!` failures, `usize`
  subtraction overflow, vector index out of bounds) are modelled with
  `Except Panic`.  A debug build panics at the overflowing subtraction,
  a release build wraps and then panics at the out-of-bounds index; either
  way construction panics, which is all the model records.
* The external `ftree::FenwickTree<Energy>` is modelled extensionally: over
  exact rationals a Fenwick tree built from an array, mutated by
  `add_at(i, δ)` (point update) and queried by `prefix_sum(len, 0.0)`
  (sum of the whole array) is observationally the plain array with a point
  update and `List.sum`, because rational addition is associative and
  commutative.
* The external `fixedbitset::FixedBitSet` (`CompactState`) is a `List Bool`
  of fixed length; `toggle i` is `set i (!get i)`.  Callers of `flip_spin`
  always pass an index below the bit-length (Rust would panic otherwise),
  so theorems carry that bound as a hypothesis.
-/

namespace Ernst

/-- The panics that `TwoLocalHamiltonian::new` can hit, in source order:
`.max().unwrap()` on an empty interaction iterator, an `assert_eq!` on
lengths, `usize` subtraction overflow inside `map_interaction_to_index`
(debug build; a release build wraps and dies on the subsequent vector
index instead), and a plain out-of-bounds vector index. -/
inductive Panic where
  | unwrapNone
  | assertFail
  | subOverflow
  | indexOutOfBounds
  deriving DecidableEq, Repr

/-- `Interactions = Vec<(SpinIndex, SpinIndex, InteractionStrength)>`. -/
abbrev Interactions := List (ℕ × ℕ × ℚ)

/-- `ExternalMagneticField = Vec<MagneticFieldStrength>`. -/
abbrev ExternalMagneticField := List ℚ

/-- `State = Vec<bool>`. -/
abbrev State := List Bool

/-- `TwoLocalHamiltonian` (hamiltonian.rs lines 4-10).  The two Fenwick
trees are carried as their extensional contents. -/
structure TwoLocalHamiltonian where
  spins : List Bool
  linearized_interactions : List ℚ
  external_magnetic_field : List ℚ
  interaction_energy : List ℚ
  magnetic_field_energy : List ℚ
  deriving DecidableEq, Repr

/-- `map_interaction_to_index` (hamiltonian.rs line 13):
`(i * (2 * n - i - 1) / 2) + (j - i - 1)`.  Total version with truncated
subtraction; all in-code uses have `i < j < n`, where it never underflows
(the checked uses inside `new` are modelled separately). -/
def kIndex (i j n : ℕ) : ℕ :=
  i * (2 * n - i - 1) / 2 + (j - i - 1)

/-- One iteration of the interaction-placement loop in `new`
(hamiltonian.rs lines 58-65), including its `usize` underflow panic
(for `i = j`) and the `linearized_interactions[index]` bounds panic. -/
def writeInteraction (n : ℕ) (spins : List Bool) (lin : List ℚ)
    (t : ℕ × ℕ × ℚ) : Except Panic (List ℚ) :=
  let i := t.1
  let j := t.2.1
  let interactionStrength := t.2.2
  let smaller := min i j
  let greater := max i j
  if 2 * n < smaller + 1 then .error .subOverflow
  else if greater < smaller + 1 then .error .subOverflow
  else
    let index := kIndex smaller greater n
    let iSpinValue : ℚ := if spins.getD i false then 1 else -1
    let jSpinValue : ℚ := if spins.getD j false then 1 else -1
    if index < lin.length then
      .ok (lin.set index (interactionStrength * iSpinValue * jSpinValue))
    else .error .indexOutOfBounds

/-- The flattened index iterator of `new` (hamiltonian.rs lines 22-24):
every `i` and `j` of every interaction triple. -/
def interactionIndices (interactions : Interactions) : List ℕ :=
  interactions.foldr (fun t acc => t.1 :: t.2.1 :: acc) []

/-- `TwoLocalHamiltonian::new` (hamiltonian.rs lines 17-75). -/
def new (interactions : Interactions)
    (external_magnetic_field : ExternalMagneticField)
    (initial_state : Option State) :
    Except Panic TwoLocalHamiltonian := do
  let n ← match (interactionIndices interactions).max? with
    | none => throw Panic.unwrapNone
    | some m => pure (m + 1)
  if external_magnetic_field.length ≠ n then throw Panic.assertFail
  let spins ← match initial_state with
    | none => pure (List.replicate n false)
    | some initialSpins =>
        if initialSpins.length ≠ n then throw Panic.assertFail
        else
          -- toggling each true position of `initial_spins` on the fresh
          -- all-false bit-set of the same length yields exactly
          -- `initial_spins`, position by position
          pure (List.zipWith (fun (s b : Bool) => if b then !s else s)
            (List.replicate n false) initialSpins)
  let magneticFieldStrengthValues : List ℚ :=
    (List.range n).map (fun i =>
      if spins.getD i false then external_magnetic_field.getD i 0
      else -(external_magnetic_field.getD i 0))
  let totalInteractions := n * (n - 1) / 2
  let linearizedInteractions ←
    interactions.foldlM (writeInteraction n spins)
      (List.replicate totalInteractions (0 : ℚ))
  return { spins := spins
           linearized_interactions := linearizedInteractions
           external_magnetic_field := external_magnetic_field
           interaction_energy := linearizedInteractions
           magnetic_field_energy := magneticFieldStrengthValues }

/-- `FenwickTree::add_at(i, δ)`, extensionally: point update.  Out of the
array it is a no-op, matching that the engine only calls it in bounds. -/
def addAt (l : List ℚ) (i : ℕ) (d : ℚ) : List ℚ :=
  l.set i (l.getD i 0 + d)

/-- The body of the `for j in 0..n` loop inside `flip_spin`
(hamiltonian.rs lines 84-97), named so the update can be reasoned about:
`lin` is `self.linearized_interactions`, `sc` is `sign_change`, `sp` the
already-toggled compact state. -/
def flipInterBody (lin : List ℚ) (spin : ℕ) (sc : ℚ) (sp : List Bool)
    (n : ℕ) (acc : List ℚ) (j : ℕ) : List ℚ :=
  if j ≠ spin then
    let index := kIndex (min spin j) (max spin j) n
    match lin[index]? with
    | some interactionStrength =>
        let otherSpinSign : ℚ := if sp.getD j false then 1 else -1
        addAt acc index (interactionStrength * sc * otherSpinSign)
    | none => acc
  else acc

/-- `TwoLocalHamiltonian::flip_spin` (hamiltonian.rs lines 77-103). -/
def flip_spin (h : TwoLocalHamiltonian) (spin : ℕ) : TwoLocalHamiltonian :=
  let spins := h.spins.set spin (!h.spins.getD spin false)
  let signChange : ℚ := if spins.getD spin false then 2 else -2
  let n := spins.length
  let interactionEnergy :=
    (List.range n).foldl
      (flipInterBody h.linearized_interactions spin signChange spins n)
      h.interaction_energy
  let magneticFieldEnergy :=
    match h.external_magnetic_field[spin]? with
    | some magneticFieldStrength =>
        addAt h.magnetic_field_energy spin (signChange * magneticFieldStrength)
    | none => h.magnetic_field_energy
  { h with spins := spins
           interaction_energy := interactionEnergy
           magnetic_field_energy := magneticFieldEnergy }

/-- `TwoLocalHamiltonian::current_energy` (hamiltonian.rs lines 105-114):
`prefix_sum` over the full length of each Fenwick tree is the plain sum. -/
def current_energy (h : TwoLocalHamiltonian) : ℚ :=
  -h.interaction_energy.sum + -h.magnetic_field_energy.sum

/-- The spin value `σ(i) ∈ {−1, +1}` encoded by a bit-vector:
`true ↦ +1`, `false ↦ −1`. -/
def spinValue (s : List Bool) (i : ℕ) : ℚ :=
  if s.getD i false then 1 else -1

/-- The from-scratch Ising energy
`H(σ) = −Σ J_ij σ_i σ_j − Σ h_i σ_i` over the interaction list and field. -/
def groundTruthEnergy (interactions : Interactions)
    (field : ExternalMagneticField) (s : List Bool) : ℚ :=
  -(interactions.map
      (fun t => t.2.2 * spinValue s t.1 * spinValue s t.2.1)).sum
  + -(((List.range field.length).map
      (fun i => field.getD i 0 * spinValue s i)).sum)

instance {ε α : Type _} [DecidableEq ε] [DecidableEq α] :
    DecidableEq (Except ε α) := fun a b =>
  match a, b with
  | .error x, .error y =>
      if h : x = y then isTrue (congrArg _ h)
      else isFalse (fun hh => h (Except.error.inj hh))
  | .ok x, .ok y =>
      if h : x = y then isTrue (congrArg _ h)
      else isFalse (fun hh => h (Except.ok.inj hh))
  | .error _, .ok _ => isFalse (fun hh => Except.noConfusion hh)
  | .ok _, .error _ => isFalse (fun hh => Except.noConfusion hh)

/-! ## Solvers (`src/solvers.rs`) -/

/-- `f32::abs` (`OrderedFloat::abs` in the annealer), as executable
rational absolute value.  Agrees with `|·|` (`absQ_eq_abs` below). -/
def absQ (q : ℚ) : ℚ := if q < 0 then -q else q

theorem absQ_eq_abs (q : ℚ) : absQ q = |q| := by
  unfold absQ
  rcases lt_or_ge q 0 with h | h
  · simp [h, abs_of_neg h]
  · simp [not_lt.mpr h, abs_of_nonneg h]

/-- `gray_code` (solvers.rs line 11): `n ^ (n >> 1)`. -/
def grayCode (n : ℕ) : ℕ := n ^^^ (n >>> 1)

/-- `u32::trailing_zeros` restricted to the nonzero arguments the solver
feeds it (it is only called on a nonzero XOR). -/
def trailingZeros (n : ℕ) : ℕ :=
  if _h : n = 0 then 0
  else if n % 2 = 1 then 0
  else trailingZeros (n / 2) + 1
  decreasing_by exact Nat.div_lt_self (Nat.pos_of_ne_zero _h) (by omega)

/-- `bit_position_changed` (solvers.rs lines 15-22). -/
def bitPositionChanged (a b : ℕ) : Option ℕ :=
  let diff := a ^^^ b
  if diff = 0 then none else some (trailingZeros diff)

/-- `from_compact_state_to_state` (solvers.rs lines 24-31): a dense boolean
vector of the bit-set's length whose true entries are the set bits. -/
def fromCompactStateToState (compactState : List Bool) : State :=
  (List.range compactState.length).map (fun i => compactState.getD i false)

/-- `f32::EPSILON = 2^(−23)`, the machine epsilon the solvers compare
against (also the value of `OrderedFloat::epsilon()` in
`simulated_annealing`, bound there to a variable called `zero`). -/
def epsF32 : ℚ := 1 / 8388608

/-- Loop state of `find_all_ground_states` (solvers.rs lines 64-82). -/
structure SolveState where
  ham : TwoLocalHamiltonian
  lowestEnergy : ℚ
  groundStates : List (ℚ × List Bool)
  deriving Repr

/-- One iteration of the Gray-code loop of `find_all_ground_states`
(solvers.rs lines 68-82). -/
def solveStep (st : SolveState) (i : ℕ) : SolveState :=
  let prevGray := grayCode (i - 1)
  let currGray := grayCode i
  let ham :=
    match bitPositionChanged prevGray currGray with
    | some bitPos => flip_spin st.ham bitPos
    | none => st.ham
  let currentEnergy := current_energy ham
  if absQ (currentEnergy - st.lowestEnergy) < epsF32 then
    { ham := ham, lowestEnergy := st.lowestEnergy
      groundStates := st.groundStates ++ [(currentEnergy, ham.spins)] }
  else if currentEnergy < st.lowestEnergy then
    { ham := ham, lowestEnergy := currentEnergy
      groundStates := [(currentEnergy, ham.spins)] }
  else
    { ham := ham, lowestEnergy := st.lowestEnergy
      groundStates := st.groundStates }

/-- `find_all_ground_states` (solvers.rs lines 52-88). -/
def find_all_ground_states (interactions : Interactions)
    (external_magnetic_field : ExternalMagneticField) :
    Except Panic (List (ℚ × State)) :=
  let n := external_magnetic_field.length
  (new interactions external_magnetic_field
    (some (List.replicate n false))).map (fun twoLocalHamiltonian =>
      let initialEnergy := current_energy twoLocalHamiltonian
      let initState : SolveState :=
        { ham := twoLocalHamiltonian, lowestEnergy := initialEnergy
          groundStates := [(initialEnergy, twoLocalHamiltonian.spins)] }
      let final := (List.range' 1 (2 ^ n - 1)).foldl solveStep initState
      final.groundStates.map (fun p => (p.1, fromCompactStateToState p.2)))

/-- `SimulatedAnnealingConfiguration` (solvers.rs lines 96-102). -/
structure SimulatedAnnealingConfiguration where
  initial_temperature : ℚ
  final_temperature : ℚ
  sweeps : ℕ
  seed : ℕ
  trace : Bool
  deriving DecidableEq, Repr

/-- `SimulatedAnnealingConfiguration::default()` (solvers.rs lines
104-114): `273.15, 0.015, 1000, 42, false`. -/
def defaultConfiguration : SimulatedAnnealingConfiguration :=
  { initial_temperature := 5463 / 20
    final_temperature := 3 / 200
    sweeps := 1000
    seed := 42
    trace := false }

/-- The configuration-override block of `simulated_annealing`
(solvers.rs lines 149-155): starts from the default and copies the
override's `initial_temperature`, `final_temperature`, `sweeps` and
`seed` — exactly the four fields the source copies. -/
def mergeConfiguration (configurationOverride :
    Option SimulatedAnnealingConfiguration) :
    SimulatedAnnealingConfiguration :=
  match configurationOverride with
  | none => defaultConfiguration
  | some c =>
      { defaultConfiguration with
          initial_temperature := c.initial_temperature
          final_temperature := c.final_temperature
          sweeps := c.sweeps
          seed := c.seed }

/-- Loop state of `simulated_annealing` (solvers.rs lines 156-214).
`draws` is write-only instrumentation recording every PRNG draw in order;
no other component reads it. -/
structure AnnealState where
  ham : TwoLocalHamiltonian
  rng : ℕ
  temperature : ℚ
  lowestEnergy : ℚ
  groundStates : List (ℚ × List Bool)
  groundStateUpdateTime : List ℕ
  draws : List (ℕ × ℚ)
  deriving Repr

/-- One sweep of `simulated_annealing` (solvers.rs lines 181-214).
The external collaborators are passed as functions over an abstract PRNG
state: `genRange n s` models `rng.gen_range(0..n)` and `genUnit s` models
`rng.gen::<f32>()` (a uniform draw in `[0,1)`); `expQ` models
`OrderedFloat::exp`.  `k = 1.0` is inlined. -/
def annealStep (genRange : ℕ → ℕ → ℕ × ℕ) (genUnit : ℕ → ℚ × ℕ)
    (expQ : ℚ → ℚ) (coolingRate : ℚ) (trace : Bool)
    (st : AnnealState) (sweep : ℕ) : AnnealState :=
  let n := st.ham.spins.length
  let spinToFlip := (genRange n st.rng).1
  let rng₁ := (genRange n st.rng).2
  let currentEnergy := current_energy st.ham
  let ham₁ := flip_spin st.ham spinToFlip
  let newEnergy := current_energy ham₁
  let deltaEnergy := newEnergy - currentEnergy
  let notAcceptanceProbability := (genUnit rng₁).1
  let rng₂ := (genUnit rng₁).2
  let acceptanceProbability := expQ (-deltaEnergy / (1 * st.temperature))
  let draws := st.draws ++ [(spinToFlip, notAcceptanceProbability)]
  let temperature := st.temperature * coolingRate
  if deltaEnergy ≤ epsF32 ∨ acceptanceProbability > notAcceptanceProbability
  then
    let newGroundState := (newEnergy, ham₁.spins)
    if newEnergy < st.lowestEnergy then
      { ham := ham₁, rng := rng₂, temperature := temperature
        lowestEnergy := newEnergy
        groundStates :=
          if !trace then [newGroundState]
          else if newGroundState ∈ st.groundStates then st.groundStates
          else st.groundStates ++ [newGroundState]
        groundStateUpdateTime := st.groundStateUpdateTime ++ [sweep]
        draws := draws }
    else if absQ (newEnergy - st.lowestEnergy) ≤ epsF32 then
      if newGroundState ∈ st.groundStates then
        { ham := ham₁, rng := rng₂, temperature := temperature
          lowestEnergy := st.lowestEnergy
          groundStates := st.groundStates
          groundStateUpdateTime := st.groundStateUpdateTime
          draws := draws }
      else
        { ham := ham₁, rng := rng₂, temperature := temperature
          lowestEnergy := st.lowestEnergy
          groundStates := st.groundStates ++ [(newEnergy, ham₁.spins)]
          groundStateUpdateTime := st.groundStateUpdateTime ++ [sweep]
          draws := draws }
    else
      { ham := ham₁, rng := rng₂, temperature := temperature
        lowestEnergy := st.lowestEnergy
        groundStates := st.groundStates
        groundStateUpdateTime := st.groundStateUpdateTime
        draws := draws }
  else
    { ham := flip_spin ham₁ spinToFlip, rng := rng₂
      temperature := temperature
      lowestEnergy := st.lowestEnergy
      groundStates := st.groundStates
      groundStateUpdateTime := st.groundStateUpdateTime
      draws := draws }

/-- `simulated_annealing` up to and including its sweep loop
(solvers.rs lines 144-214), returning the full final loop state.
`powQ a b` models `OrderedFloat::powf`; the abstract PRNG state is
initialised from the seed (`StdRng::seed_from_u64`). -/
def annealRun (genRange : ℕ → ℕ → ℕ × ℕ) (genUnit : ℕ → ℚ × ℕ)
    (expQ : ℚ → ℚ) (powQ : ℚ → ℚ → ℚ)
    (interactions : Interactions)
    (external_magnetic_field : ExternalMagneticField)
    (configurationOverride : Option SimulatedAnnealingConfiguration) :
    Except Panic AnnealState :=
  let config := mergeConfiguration configurationOverride
  let rng₀ := config.seed
  let initialTemperature := config.initial_temperature
  let finalTemperature := config.final_temperature
  let coolingRate :=
    powQ (finalTemperature / initialTemperature) (1 / (config.sweeps : ℚ))
  let n := external_magnetic_field.length
  (new interactions external_magnetic_field
    (some (List.replicate n false))).map (fun twoLocalHamiltonian =>
      let initialEnergy := current_energy twoLocalHamiltonian
      let st₀ : AnnealState :=
        { ham := twoLocalHamiltonian, rng := rng₀
          temperature := initialTemperature
          lowestEnergy := initialEnergy
          groundStates := [(initialEnergy, twoLocalHamiltonian.spins)]
          groundStateUpdateTime := [0]
          draws := [] }
      (List.range' 1 (config.sweeps - 1)).foldl
        (annealStep genRange genUnit expQ coolingRate config.trace) st₀)

/-- `simulated_annealing` (solvers.rs lines 144-236): the sweep loop
followed by the epoch-list trim and the zip of the retained states with
their discovery sweeps.  (`ground_state_update_time[index]`: in the
non-trace mode the trimmed list has exactly one entry per state.) -/
def simulated_annealing (genRange : ℕ → ℕ → ℕ × ℕ) (genUnit : ℕ → ℚ × ℕ)
    (expQ : ℚ → ℚ) (powQ : ℚ → ℚ → ℚ)
    (interactions : Interactions)
    (external_magnetic_field : ExternalMagneticField)
    (configurationOverride : Option SimulatedAnnealingConfiguration) :
    Except Panic (List (ℚ × State × ℕ)) :=
  let config := mergeConfiguration configurationOverride
  (annealRun genRange genUnit expQ powQ interactions
    external_magnetic_field configurationOverride).map (fun final =>
      let times :=
        if !config.trace then
          final.groundStateUpdateTime.drop
            (final.groundStateUpdateTime.length - final.groundStates.length)
        else final.groundStateUpdateTime
      final.groundStates.enum.map
        (fun p => (p.2.1, fromCompactStateToState p.2.2, times.getD p.1 0)))

/-! ## Basic sanity checks against the repository's own unit tests -/

example :
    (new [(0, 1, -1), (1, 2, 2), (0, 2, 2)] [-1, -1, -3] none).map
      (fun h => (current_energy h, current_energy (flip_spin h 0),
        current_energy (flip_spin (flip_spin h 0) 1),
        current_energy (flip_spin (flip_spin (flip_spin h 0) 1) 2))) =
    .ok (-8, -4, 4, 2) := by with_unfolding_all decide

example :
    find_all_ground_states [(0, 1, 1)] [0, 0] =
      .ok [(-1, [false, false]), (-1, [true, true])] := by
  with_unfolding_all decide

/-! ## C1 — incremental energy vs from-scratch Ising sum -/

/-- C1.  The claim fails on the code: with interactions `[(0,1,1.0)]`,
field `[0.0, 0.0]` and the supplied initial bit-vector `[true, false]`
(accepted by construction), a single `flip_spin(0)` leaves
`current_energy = 3` while the from-scratch Ising sum over the resulting
state `[false, false]` is `−1` — a gap of 4, far beyond
`machine_epsilon(f32) · (1 + |Σ|)`.  `flip_spin` treats the stored value
`J·σ₀(0)·σ₀(1) = −1` as the bare coupling, so its energy delta has the
wrong sign whenever an interacting pair starts misaligned.  (All values
involved are exactly representable in `f32`, so the rational model
reproduces the machine computation.) -/
theorem C1_flip_energy_inconsistent_with_ising_sum :
    (new [(0, 1, 1)] [0, 0] (some [true, false])).map
      (fun h => (current_energy h, current_energy (flip_spin h 0),
                 (flip_spin h 0).spins)) =
      .ok (1, 3, [false, false]) ∧
    groundTruthEnergy [(0, 1, 1)] [0, 0] [false, false] = -1 ∧
    ¬(absQ ((3 : ℚ) - (-1)) ≤ epsF32 * (1 + 2)) := by
  with_unfolding_all decide

/-! ## C3 — the `trace` option of the configuration override -/

/-- C3.  The claim fails on the code: the override block of
`simulated_annealing` (solvers.rs lines 149-155) copies
`initial_temperature`, `final_temperature`, `sweeps` and `seed` but never
`trace`, so the effective configuration always carries the default
`trace = false`; an override with `trace = true` is silently ignored. -/
theorem C3_trace_override_ignored (c : SimulatedAnnealingConfiguration) :
    (mergeConfiguration (some c)).trace = false ∧
    mergeConfiguration (some c) = { c with trace := false } := by
  cases c
  exact ⟨rfl, rfl⟩

/-! ## C4 — empty interaction list -/

/-- C4 counterexample.  The claim fails on the code at the explicit input
`interactions = []`, `field = [1.0]`: construction panics — the `n`
derivation calls `.max().unwrap()` on the empty flattened index iterator
(hamiltonian.rs lines 22-27) — so both solvers die instead of succeeding.
(The simulated-annealing run is instantiated with trivial PRNG/`exp`/`powf`
stand-ins; the panic happens before any of them is consulted.) -/
theorem C4_empty_interactions_panic_counterexample :
    find_all_ground_states [] [1] = .error Panic.unwrapNone ∧
    simulated_annealing (fun _ s => (0, s)) (fun s => (0, s)) id
      (fun a _ => a) [] [1] none = .error Panic.unwrapNone ∧
    new [] [1] none = .error Panic.unwrapNone := by
  refine ⟨rfl, rfl, rfl⟩

/-- C4 amended.  For every field vector (empty or not), every optional
initial state, and any PRNG/configuration, an empty interaction list makes
Hamiltonian construction — and therefore both solvers — panic at the
`.max().unwrap()` on the empty index iterator.  No field vector makes the
empty interaction list valid. -/
theorem C4_empty_interactions_always_panic
    (field : ExternalMagneticField) (init : Option State)
    (genRange : ℕ → ℕ → ℕ × ℕ) (genUnit : ℕ → ℚ × ℕ)
    (expQ : ℚ → ℚ) (powQ : ℚ → ℚ → ℚ)
    (o : Option SimulatedAnnealingConfiguration) :
    new [] field init = .error Panic.unwrapNone ∧
    find_all_ground_states [] field = .error Panic.unwrapNone ∧
    simulated_annealing genRange genUnit expQ powQ [] field o =
      .error Panic.unwrapNone := by
  refine ⟨rfl, rfl, rfl⟩

/-! ## C5 — self-couplings and duplicate unordered pairs -/

/-- C5 counterexample.  The claim fails on the code at the explicit input
`interactions = [(0,1,1.0), (0,1,2.0)]`, `field = [0.0, 0.0]`:
construction succeeds — no error of any kind is reported — and the
duplicate unordered pair `{0,1}` proceeds silently with the second
coupling value `2.0` winning (the placement loop plainly overwrites the
linearised slot). -/
theorem C5_duplicate_pair_accepted_counterexample :
    (new [(0, 1, 1), (0, 1, 2)] [0, 0] none).map
      (fun h => h.linearized_interactions) = .ok [2] := by
  with_unfolding_all decide

/-- C5 amended.  Construction performs no interaction validation at all:
a duplicate unordered pair is accepted silently with the last-listed
coupling value winning, and a self-coupling `i == j` makes construction
panic in the index arithmetic (`usize` underflow of `j − i − 1` in a debug
build; the wrapped index is out of bounds in a release build) rather than
report a `MalformedInteraction` error — no such error kind exists in the
code. -/
theorem C5_no_interaction_validation (J₁ J₂ h₀ h₁ : ℚ) (J f : ℚ) :
    (new [(0, 1, J₁), (0, 1, J₂)] [h₀, h₁] none).map
      (fun h => h.linearized_interactions) = .ok [J₂] ∧
    new [(0, 0, J)] [f] none = .error Panic.subOverflow := by
  constructor
  · simp [new, interactionIndices, writeInteraction, kIndex, List.foldlM,
      Except.map, bind, Except.bind, pure, Except.pure]
  · rfl

/-! ## List helper lemmas -/

theorem getD_set {α : Type _} (l : List α) (i m : ℕ) (v d : α) :
    (l.set i v).getD m d =
      if i = m ∧ i < l.length then v else l.getD m d := by
  simp only [List.getD_eq_getElem?_getD, List.getElem?_set]
  by_cases h1 : i = m
  · subst h1
    by_cases h2 : i < l.length
    · simp [h2]
    · simp [h2, List.getElem?_eq_none (le_of_not_lt h2)]
  · simp [h1]

theorem eq_of_getD (l₁ l₂ : List ℚ) (hlen : l₁.length = l₂.length)
    (h : ∀ m, l₁.getD m 0 = l₂.getD m 0) : l₁ = l₂ := by
  apply List.ext_getElem?
  intro n
  by_cases hn : n < l₁.length
  · have hn2 : n < l₂.length := hlen ▸ hn
    have hh := h n
    rw [List.getD_eq_getElem?_getD, List.getD_eq_getElem?_getD,
      List.getElem?_eq_getElem hn, List.getElem?_eq_getElem hn2] at hh
    rw [List.getElem?_eq_getElem hn, List.getElem?_eq_getElem hn2]
    simpa using hh
  · rw [List.getElem?_eq_none (le_of_not_lt hn),
      List.getElem?_eq_none (by omega)]

theorem length_addAt (l : List ℚ) (i : ℕ) (d : ℚ) :
    (addAt l i d).length = l.length := by
  simp [addAt]

theorem getD_addAt (l : List ℚ) (i m : ℕ) (d : ℚ) :
    (addAt l i d).getD m 0 =
      l.getD m 0 + if i = m ∧ i < l.length then d else 0 := by
  unfold addAt
  rw [getD_set]
  by_cases h : i = m ∧ i < l.length
  · rcases h with ⟨h1, h2⟩
    subst h1
    simp [h2]
  · simp [h]

/-! ## The interaction-energy update of `flip_spin`, pointwise -/

/-- The amount the `j`-iteration of the `flip_spin` loop adds to position
`m` of an interaction-energy array of length `L`. -/
def flipContribution (lin : List ℚ) (spin : ℕ) (sc : ℚ) (sp : List Bool)
    (n L m j : ℕ) : ℚ :=
  if j ≠ spin ∧ kIndex (min spin j) (max spin j) n = m ∧ m < L then
    (lin[kIndex (min spin j) (max spin j) n]?).getD 0 * sc *
      (if sp.getD j false then 1 else -1)
  else 0

theorem flipInterBody_length (lin : List ℚ) (spin : ℕ) (sc : ℚ)
    (sp : List Bool) (n : ℕ) (acc : List ℚ) (j : ℕ) :
    (flipInterBody lin spin sc sp n acc j).length = acc.length := by
  by_cases hj : j ≠ spin
  · cases hget : lin[kIndex (min spin j) (max spin j) n]? <;>
      simp [flipInterBody, hj, hget, length_addAt]
  · simp [flipInterBody, hj]

theorem flipInterBody_getD (lin : List ℚ) (spin : ℕ) (sc : ℚ)
    (sp : List Bool) (n : ℕ) (acc : List ℚ) (j m : ℕ) :
    (flipInterBody lin spin sc sp n acc j).getD m 0 =
      acc.getD m 0 + flipContribution lin spin sc sp n acc.length m j := by
  by_cases hj : j ≠ spin
  · cases hget : lin[kIndex (min spin j) (max spin j) n]? with
    | none =>
        simp [flipInterBody, flipContribution, hj, hget]
    | some w =>
        simp only [flipInterBody, flipContribution, hj, hget, if_true,
          ne_eq, not_false_eq_true, true_and, getD_addAt,
          Option.getD_some]
        by_cases hc : kIndex (min spin j) (max spin j) n = m ∧ m < acc.length
        · rcases hc with ⟨h1, h2⟩
          subst h1
          simp [h2]
        · have hc1 : ¬(kIndex (min spin j) (max spin j) n = m ∧
              kIndex (min spin j) (max spin j) n < acc.length) := by
            intro hcc
            exact hc ⟨hcc.1, hcc.1 ▸ hcc.2⟩
          rw [if_neg hc1, if_neg hc, add_zero]
  · simp [flipInterBody, flipContribution, hj]

theorem flipFold_length (lin : List ℚ) (spin : ℕ) (sc : ℚ)
    (sp : List Bool) (n : ℕ) (js : List ℕ) (acc : List ℚ) :
    (js.foldl (flipInterBody lin spin sc sp n) acc).length = acc.length := by
  induction js generalizing acc with
  | nil => rfl
  | cons j js ih => rw [List.foldl_cons, ih, flipInterBody_length]

theorem flipFold_getD (lin : List ℚ) (spin : ℕ) (sc : ℚ)
    (sp : List Bool) (n : ℕ) (js : List ℕ) (acc : List ℚ) (m : ℕ) :
    (js.foldl (flipInterBody lin spin sc sp n) acc).getD m 0 =
      acc.getD m 0 +
        (js.map (flipContribution lin spin sc sp n acc.length m)).sum := by
  induction js generalizing acc with
  | nil => simp
  | cons j js ih =>
      rw [List.foldl_cons, ih, flipInterBody_length, List.map_cons,
        List.sum_cons, flipInterBody_getD]
      ring

theorem sum_map_neg (l : List ℕ) (f : ℕ → ℚ) :
    (l.map (fun x => -(f x))).sum = -((l.map f).sum) := by
  induction l with
  | nil => simp
  | cons a l ih => simp [ih]; ring

theorem set_getD_self {α : Type _} (l : List α) (s : ℕ) (d : α)
    (hs : s < l.length) : l.set s (l.getD s d) = l := by
  apply List.ext_getElem?
  intro n
  rw [List.getElem?_set]
  by_cases h : s = n
  · subst h
    rw [if_pos rfl, if_pos hs, List.getD_eq_getElem?_getD,
      List.getElem?_eq_getElem hs]
    rfl
  · simp [h]

/-! ## C6 — flip involution -/

theorem flip_spin_spins (h : TwoLocalHamiltonian) (s : ℕ) :
    (flip_spin h s).spins = h.spins.set s (!h.spins.getD s false) := rfl

theorem flip_spin_lin (h : TwoLocalHamiltonian) (s : ℕ) :
    (flip_spin h s).linearized_interactions = h.linearized_interactions :=
  rfl

theorem flip_spin_field (h : TwoLocalHamiltonian) (s : ℕ) :
    (flip_spin h s).external_magnetic_field = h.external_magnetic_field :=
  rfl

theorem flip_spin_interE (h : TwoLocalHamiltonian) (s : ℕ) :
    (flip_spin h s).interaction_energy =
      (List.range (h.spins.set s (!h.spins.getD s false)).length).foldl
        (flipInterBody h.linearized_interactions s
          (if (h.spins.set s (!h.spins.getD s false)).getD s false
            then (2 : ℚ) else -2)
          (h.spins.set s (!h.spins.getD s false))
          (h.spins.set s (!h.spins.getD s false)).length)
        h.interaction_energy := rfl

theorem flip_spin_magE (h : TwoLocalHamiltonian) (s : ℕ) :
    (flip_spin h s).magnetic_field_energy =
      match h.external_magnetic_field[s]? with
      | some magneticFieldStrength =>
          addAt h.magnetic_field_energy s
            ((if (h.spins.set s (!h.spins.getD s false)).getD s false
              then (2 : ℚ) else -2) * magneticFieldStrength)
      | none => h.magnetic_field_energy := rfl

theorem flip_spin_spins_length (h : TwoLocalHamiltonian) (s : ℕ) :
    (flip_spin h s).spins.length = h.spins.length := by
  rw [flip_spin_spins, List.length_set]

/-- Toggling the same spin twice restores the compact state
(for an in-range index, as in Rust where `toggle` would panic
otherwise). -/
theorem flip_flip_spins (h : TwoLocalHamiltonian) (s : ℕ)
    (hs : s < h.spins.length) :
    (flip_spin (flip_spin h s) s).spins = h.spins := by
  rw [flip_spin_spins, flip_spin_spins]
  have h1 : (h.spins.set s (!h.spins.getD s false)).getD s false =
      !h.spins.getD s false := by
    rw [getD_set, if_pos ⟨rfl, hs⟩]
  rw [h1, Bool.not_not, List.set_set, set_getD_self _ _ _ hs]

/-- The second flip's sign change is the negation of the first one's. -/
theorem flip_flip_signChange (h : TwoLocalHamiltonian) (s : ℕ)
    (hs : s < h.spins.length) :
    (if ((flip_spin h s).spins.set s
          (!(flip_spin h s).spins.getD s false)).getD s false
      then (2 : ℚ) else -2) =
    -(if (h.spins.set s (!h.spins.getD s false)).getD s false
      then (2 : ℚ) else -2) := by
  have h1 : (h.spins.set s (!h.spins.getD s false)).getD s false =
      !h.spins.getD s false := by
    rw [getD_set, if_pos ⟨rfl, hs⟩]
  have hs1 : s < (flip_spin h s).spins.length := by
    rw [flip_spin_spins_length]; exact hs
  have h2 : ((flip_spin h s).spins.set s
      (!(flip_spin h s).spins.getD s false)).getD s false =
      !(flip_spin h s).spins.getD s false := by
    rw [getD_set, if_pos ⟨rfl, hs1⟩]
  rw [h2, flip_spin_spins, h1, Bool.not_not]
  cases h.spins.getD s false <;> norm_num

/-- Flipping a valid spin twice restores the interaction-energy tree
exactly (exact cancellation of the two point updates). -/
theorem flip_flip_interE (h : TwoLocalHamiltonian) (s : ℕ)
    (hs : s < h.spins.length) :
    (flip_spin (flip_spin h s) s).interaction_energy =
      h.interaction_energy := by
  have hsp2 : (flip_spin h s).spins.set s
      (!(flip_spin h s).spins.getD s false) = h.spins :=
    flip_flip_spins h s hs
  have hlen2 : ((flip_spin h s).spins.set s
      (!(flip_spin h s).spins.getD s false)).length = h.spins.length := by
    rw [hsp2]
  have hlen1 : (h.spins.set s (!h.spins.getD s false)).length =
      h.spins.length := List.length_set ..
  rw [flip_spin_interE, flip_spin_lin, hlen2]
  rw [flip_flip_signChange h s hs, hsp2]
  set sc := (if (h.spins.set s (!h.spins.getD s false)).getD s false
    then (2 : ℚ) else -2) with hsc
  have hE1 : (flip_spin h s).interaction_energy =
      (List.range h.spins.length).foldl
        (flipInterBody h.linearized_interactions s sc
          (h.spins.set s (!h.spins.getD s false)) h.spins.length)
        h.interaction_energy := by
    rw [flip_spin_interE, hlen1]
  rw [hE1]
  apply eq_of_getD
  · rw [flipFold_length, flipFold_length]
  · intro m
    rw [flipFold_getD, flipFold_getD, flipFold_length]
    have hcontrib : ∀ j : ℕ,
        flipContribution h.linearized_interactions s (-sc) h.spins
          h.spins.length h.interaction_energy.length m j =
        -(flipContribution h.linearized_interactions s sc
          (h.spins.set s (!h.spins.getD s false))
          h.spins.length h.interaction_energy.length m j) := by
      intro j
      unfold flipContribution
      by_cases hj : j ≠ s
      · have hgd : (h.spins.set s (!h.spins.getD s false)).getD j false =
            h.spins.getD j false := by
          rw [getD_set, if_neg]
          intro hcc
          exact hj hcc.1.symm
        by_cases hc : j ≠ s ∧
            kIndex (min s j) (max s j) h.spins.length = m ∧
            m < h.interaction_energy.length
        · rw [if_pos hc, if_pos hc, hgd]
          ring
        · rw [if_neg hc, if_neg hc, neg_zero]
      · simp at hj
        subst hj
        simp
    rw [List.map_congr_left (fun j _ => hcontrib j), sum_map_neg]
    ring

/-- Flipping a valid spin twice restores the magnetic-field tree
exactly. -/
theorem flip_flip_magE (h : TwoLocalHamiltonian) (s : ℕ)
    (hs : s < h.spins.length) :
    (flip_spin (flip_spin h s) s).magnetic_field_energy =
      h.magnetic_field_energy := by
  rw [flip_spin_magE, flip_spin_field, flip_flip_signChange h s hs]
  set sc := (if (h.spins.set s (!h.spins.getD s false)).getD s false
    then (2 : ℚ) else -2) with hsc
  have hE1 : (flip_spin h s).magnetic_field_energy =
      match h.external_magnetic_field[s]? with
      | some magneticFieldStrength =>
          addAt h.magnetic_field_energy s (sc * magneticFieldStrength)
      | none => h.magnetic_field_energy := flip_spin_magE h s
  cases hfield : h.external_magnetic_field[s]? with
  | none => rw [hE1, hfield]
  | some m =>
      rw [hE1, hfield]
      apply eq_of_getD
      · rw [length_addAt, length_addAt]
      · intro u
        rw [getD_addAt, length_addAt, getD_addAt]
        by_cases hc : s = u ∧ s < h.magnetic_field_energy.length
        · rw [if_pos hc, if_pos hc]
          ring
        · rw [if_neg hc, if_neg hc]
          ring

/-- C6.  For every Hamiltonian instance and every valid spin index `i`,
two consecutive `flip_spin(i)` calls restore `current_energy` exactly:
the second loop adds the exact negation of every point update of the
first (stored couplings are unchanged, the other spins' signs are
unchanged, and the sign change flips), so the cancellation is exact in
the rational model of the energies. -/
theorem C6_flip_involution (h : TwoLocalHamiltonian) (i : ℕ)
    (hi : i < h.spins.length) :
    current_energy (flip_spin (flip_spin h i) i) = current_energy h := by
  unfold current_energy
  rw [flip_flip_interE h i hi, flip_flip_magE h i hi]

/-- C6 witness: the involution applied to a concrete instance. -/
theorem C6_flip_involution_witness :
    0 < (TwoLocalHamiltonian.mk [true, false] [5] [1, 2] [3] [4, 7]).spins.length ∧
    current_energy (flip_spin (flip_spin
      (TwoLocalHamiltonian.mk [true, false] [5] [1, 2] [3] [4, 7]) 0) 0) =
    current_energy
      (TwoLocalHamiltonian.mk [true, false] [5] [1, 2] [3] [4, 7]) :=
  ⟨by decide, C6_flip_involution
    (TwoLocalHamiltonian.mk [true, false] [5] [1, 2] [3] [4, 7]) 0
    (by decide)⟩

/-! ## C10 — the linearised upper-triangular index -/

/-- Number of linearised slots taken by rows `0, …, i−1`:
`Σ_{r<i} (n−1−r)`. -/
def rowSum (n i : ℕ) : ℕ := ∑ r ∈ Finset.range i, (n - 1 - r)

theorem rowSum_succ (n i : ℕ) :
    rowSum n (i + 1) = rowSum n i + (n - 1 - i) := by
  unfold rowSum
  rw [Finset.sum_range_succ]

theorem two_mul_rowSum (n i : ℕ) (hi : i ≤ n) :
    2 * rowSum n i = i * (2 * n - i - 1) := by
  induction i with
  | zero => simp [rowSum]
  | succ i ih =>
      have hi' : i ≤ n := Nat.le_of_succ_le hi
      obtain ⟨a, ha⟩ : ∃ a, n = i + 1 + a := ⟨n - (i + 1), by omega⟩
      subst ha
      rw [rowSum_succ, Nat.mul_add, ih hi']
      have e1 : 2 * (i + 1 + a) - i - 1 = i + 2 * a + 1 := by omega
      have e2 : 2 * (i + 1 + a) - (i + 1) - 1 = i + 2 * a := by omega
      have e3 : i + 1 + a - 1 - i = a := by omega
      rw [e1, e2, e3]
      ring

theorem kIndex_eq_rowSum (n i j : ℕ) (hij : i < j) (hjn : j < n) :
    kIndex i j n = rowSum n i + (j - i - 1) := by
  unfold kIndex
  have h2 : 2 * rowSum n i = i * (2 * n - i - 1) :=
    two_mul_rowSum n i (by omega)
  rw [← h2, Nat.mul_div_cancel_left _ (by norm_num)]

theorem rowSum_mono (n : ℕ) {i i' : ℕ} (h : i ≤ i') :
    rowSum n i ≤ rowSum n i' := by
  unfold rowSum
  exact Finset.sum_le_sum_of_subset (Finset.range_subset.mpr h)

theorem rowSum_n_eq (n : ℕ) : rowSum n n = n * (n - 1) / 2 := by
  unfold rowSum
  have h : ∑ r ∈ Finset.range n, (n - 1 - r) = ∑ r ∈ Finset.range n, r := by
    exact Finset.sum_range_reflect (fun r => r) n
  rw [h, Finset.sum_range_id]

theorem kIndex_lt_total (n i j : ℕ) (hij : i < j) (hjn : j < n) :
    kIndex i j n < n * (n - 1) / 2 := by
  rw [kIndex_eq_rowSum n i j hij hjn]
  have h1 : j - i - 1 < n - 1 - i := by omega
  calc rowSum n i + (j - i - 1) < rowSum n i + (n - 1 - i) := by omega
    _ = rowSum n (i + 1) := (rowSum_succ n i).symm
    _ ≤ rowSum n n := rowSum_mono n (by omega)
    _ = n * (n - 1) / 2 := rowSum_n_eq n

theorem kIndex_lt_rowSum_succ (n i j : ℕ) (hij : i < j) (hjn : j < n) :
    kIndex i j n < rowSum n (i + 1) := by
  rw [kIndex_eq_rowSum n i j hij hjn, rowSum_succ]
  omega

theorem rowSum_le_kIndex (n i j : ℕ) (hij : i < j) (hjn : j < n) :
    rowSum n i ≤ kIndex i j n := by
  rw [kIndex_eq_rowSum n i j hij hjn]
  omega

theorem kIndex_injective (n i j i' j' : ℕ)
    (hij : i < j) (hjn : j < n) (hij' : i' < j') (hjn' : j' < n)
    (heq : kIndex i j n = kIndex i' j' n) : i = i' ∧ j = j' := by
  have hii : i = i' := by
    by_contra hne
    rcases Nat.lt_or_ge i i' with hlt | hge
    · have h1 : kIndex i j n < rowSum n (i + 1) :=
        kIndex_lt_rowSum_succ n i j hij hjn
      have h2 : rowSum n (i + 1) ≤ rowSum n i' := rowSum_mono n (by omega)
      have h3 : rowSum n i' ≤ kIndex i' j' n :=
        rowSum_le_kIndex n i' j' hij' hjn'
      omega
    · have hlt : i' < i := by omega
      have h1 : kIndex i' j' n < rowSum n (i' + 1) :=
        kIndex_lt_rowSum_succ n i' j' hij' hjn'
      have h2 : rowSum n (i' + 1) ≤ rowSum n i := rowSum_mono n (by omega)
      have h3 : rowSum n i ≤ kIndex i j n :=
        rowSum_le_kIndex n i j hij hjn
      omega
  subst hii
  refine ⟨rfl, ?_⟩
  rw [kIndex_eq_rowSum n i j hij hjn, kIndex_eq_rowSum n i j' hij' hjn']
    at heq
  omega

/-- C10.  For spins `i < j < n`, the linearised index
`k(i,j,n) = i·(2n−i−1)/2 + (j−i−1)` is below `n(n−1)/2`, and the map
`(i,j) ↦ k` is injective on ordered pairs; hence every slot the
construction loop writes (`linearized_interactions[k]`) and every slot
`flip_spin` touches (`k(min,max,n)` with `min < max < n`) is in bounds,
and the two `usize` subtractions `2n−i−1` and `j−i−1` cannot underflow. -/
theorem C10_kIndex_bound_and_injective (n i j i' j' : ℕ)
    (hij : i < j) (hjn : j < n) (hij' : i' < j') (hjn' : j' < n) :
    kIndex i j n < n * (n - 1) / 2 ∧
    (kIndex i j n = kIndex i' j' n → i = i' ∧ j = j') ∧
    i + 1 ≤ 2 * n ∧ i + 1 ≤ j := by
  refine ⟨kIndex_lt_total n i j hij hjn, ?_, by omega, by omega⟩
  exact kIndex_injective n i j i' j' hij hjn hij' hjn'

/-- C10 witness: the bound and injectivity at `n = 3`. -/
theorem C10_kIndex_bound_and_injective_witness :
    kIndex 0 1 3 < 3 * (3 - 1) / 2 ∧
    (kIndex 0 1 3 = kIndex 1 2 3 → 0 = 1 ∧ 1 = 2) ∧
    0 + 1 ≤ 2 * 3 ∧ 0 + 1 ≤ 1 :=
  C10_kIndex_bound_and_injective 3 0 1 1 2 (by decide) (by decide)
    (by decide) (by decide)

/-! ## C7 — Gray-code single-bit steps -/

theorem trailingZeros_of_odd {i : ℕ} (h : i % 2 = 1) :
    trailingZeros i = 0 := by
  unfold trailingZeros
  have hne : i ≠ 0 := by omega
  simp [hne, h]

theorem trailingZeros_of_even {i : ℕ} (hne : i ≠ 0) (h : i % 2 = 0) :
    trailingZeros i = trailingZeros (i / 2) + 1 := by
  conv_lhs => rw [trailingZeros]
  simp [hne, h]

theorem trailingZeros_two_pow (t : ℕ) : trailingZeros (2 ^ t) = t := by
  induction t with
  | zero => rw [pow_zero, trailingZeros_of_odd (show 1 % 2 = 1 by norm_num)]
  | succ t ih =>
      rw [trailingZeros_of_even (by positivity) (by
          rw [pow_succ]
          omega),
        pow_succ, Nat.mul_div_cancel _ (by norm_num), ih]

/-- `i XOR (i−1)` is the all-ones mask up to and including the lowest set
bit of `i`. -/
theorem xor_pred (i : ℕ) (h : 1 ≤ i) :
    i ^^^ (i - 1) = 2 ^ (trailingZeros i + 1) - 1 := by
  induction i using Nat.strong_induction_on with
  | _ i ih =>
    by_cases hodd : i % 2 = 1
    · rw [trailingZeros_of_odd hodd]
      apply Nat.eq_of_testBit_eq
      intro k
      cases k with
      | zero =>
          rw [Nat.testBit_xor, Nat.testBit_zero, Nat.testBit_zero,
            Nat.testBit_zero]
          have h1 : (i - 1) % 2 = 0 := by omega
          have h2 : (2 ^ (0 + 1) - 1) % 2 = 1 := by norm_num
          simp [hodd, h1, h2]
      | succ k =>
          rw [Nat.testBit_xor, Nat.testBit_add_one, Nat.testBit_add_one,
            Nat.testBit_add_one]
          have h1 : (i - 1) / 2 = i / 2 := by omega
          have h2 : (2 ^ (0 + 1) - 1) / 2 = 0 := by norm_num
          rw [h1, h2]
          simp
    · have h0 : i % 2 = 0 := by omega
      have hne : i ≠ 0 := by omega
      have hge2 : 2 ≤ i := by omega
      have hhalf : 1 ≤ i / 2 := by omega
      have hlt : i / 2 < i := by omega
      have ihh := ih (i / 2) hlt hhalf
      rw [trailingZeros_of_even hne h0]
      apply Nat.eq_of_testBit_eq
      intro k
      cases k with
      | zero =>
          rw [Nat.testBit_xor, Nat.testBit_zero, Nat.testBit_zero,
            Nat.testBit_zero]
          have h1 : (i - 1) % 2 = 1 := by omega
          have h2 : (2 ^ (trailingZeros (i / 2) + 1 + 1) - 1) % 2 = 1 := by
            have : 2 ^ (trailingZeros (i / 2) + 1 + 1) =
                2 * 2 ^ (trailingZeros (i / 2) + 1) := by ring
            have hp : 1 ≤ 2 ^ (trailingZeros (i / 2) + 1) :=
              Nat.one_le_two_pow
            omega
          simp [h0, h1, h2]
      | succ k =>
          rw [Nat.testBit_xor, Nat.testBit_add_one, Nat.testBit_add_one,
            Nat.testBit_add_one]
          have h1 : (i - 1) / 2 = i / 2 - 1 := by omega
          rw [h1, ← Nat.testBit_xor, ihh]
          have h2 : (2 ^ (trailingZeros (i / 2) + 1 + 1) - 1) / 2 =
              2 ^ (trailingZeros (i / 2) + 1) - 1 := by
            have : 2 ^ (trailingZeros (i / 2) + 1 + 1) =
                2 * 2 ^ (trailingZeros (i / 2) + 1) := by ring
            have hp : 1 ≤ 2 ^ (trailingZeros (i / 2) + 1) :=
              Nat.one_le_two_pow
            omega
          rw [h2]

theorem shiftRight_one_xor (a b : ℕ) :
    (a ^^^ b) >>> 1 = (a >>> 1) ^^^ (b >>> 1) := by
  apply Nat.eq_of_testBit_eq
  intro k
  simp [Nat.testBit_shiftRight, Nat.testBit_xor]

/-- The Gray codes of consecutive integers differ in exactly the bit at
the lowest set position of `i`. -/
theorem grayCode_xor_pred (i : ℕ) (h : 1 ≤ i) :
    grayCode (i - 1) ^^^ grayCode i = 2 ^ trailingZeros i := by
  unfold grayCode
  have hre : (i - 1) ^^^ ((i - 1) >>> 1) ^^^ (i ^^^ (i >>> 1)) =
      (i ^^^ (i - 1)) ^^^ ((i ^^^ (i - 1)) >>> 1) := by
    rw [shiftRight_one_xor]
    apply Nat.eq_of_testBit_eq
    intro k
    simp only [Nat.testBit_xor, Nat.testBit_shiftRight]
    have hb : ∀ a b c d : Bool, ((a != b) != (c != d)) = ((c != a) != (d != b)) := by
      decide
    exact hb _ _ _ _
  rw [hre, xor_pred i h]
  set t := trailingZeros i with ht
  have hp : 1 ≤ 2 ^ t := Nat.one_le_two_pow
  have hp2 : 2 ^ (t + 1) = 2 * 2 ^ t := by ring
  have hshift : (2 ^ (t + 1) - 1) >>> 1 = 2 ^ t - 1 := by
    rw [Nat.shiftRight_one]
    omega
  rw [hshift]
  apply Nat.eq_of_testBit_eq
  intro k
  rw [Nat.testBit_xor, Nat.testBit_two_pow_sub_one,
    Nat.testBit_two_pow_sub_one, Nat.testBit_two_pow]
  by_cases h1 : k < t
  · have h2 : k < t + 1 := by omega
    have h3 : t ≠ k := by omega
    simp [h1, h2, h3]
  · by_cases h2 : k = t
    · subst h2
      simp [Nat.lt_succ_self, h1]
    · have h3 : ¬(k < t + 1) := by omega
      have h4 : t ≠ k := fun hc => h2 hc.symm
      simp [h1, h3, h4]

theorem grayCode_lt_two_pow {m n : ℕ} (h : m < 2 ^ n) :
    grayCode m < 2 ^ n := by
  unfold grayCode
  apply Nat.xor_lt_two_pow h
  calc m >>> 1 ≤ m := by
        rw [Nat.shiftRight_one]
        omega
    _ < 2 ^ n := h

/-- The dense boolean state holding the low `n` bits of `m`
(bit `u` of the Gray code is spin `u`). -/
def bitsOf (m n : ℕ) : List Bool := (List.range n).map m.testBit

theorem bitsOf_length (m n : ℕ) : (bitsOf m n).length = n := by
  simp [bitsOf]

theorem bitsOf_getD (m n u : ℕ) :
    (bitsOf m n).getD u false =
      if u < n then m.testBit u else false := by
  unfold bitsOf
  rw [List.getD_eq_getElem?_getD, List.getElem?_map]
  by_cases h : u < n
  · rw [List.getElem?_range h]
    simp [h]
  · rw [List.getElem?_eq_none (by simpa using Nat.le_of_not_lt h)]
    simp [h]

theorem bitsOf_xor_two_pow (x t n : ℕ) (ht : t < n) :
    bitsOf (x ^^^ 2 ^ t) n =
      (bitsOf x n).set t (!(bitsOf x n).getD t false) := by
  apply List.ext_getElem?
  intro u
  rw [List.getElem?_set]
  by_cases hu : u < n
  · have h1 : (bitsOf (x ^^^ 2 ^ t) n)[u]? = some ((x ^^^ 2 ^ t).testBit u) := by
      unfold bitsOf
      rw [List.getElem?_map, List.getElem?_range hu]
      rfl
    have h2 : (bitsOf x n)[u]? = some (x.testBit u) := by
      unfold bitsOf
      rw [List.getElem?_map, List.getElem?_range hu]
      rfl
    rw [h1]
    by_cases he : t = u
    · subst he
      rw [if_pos rfl, if_pos (by rw [bitsOf_length]; exact ht)]
      rw [bitsOf_getD, if_pos ht, Nat.testBit_xor,
        Nat.testBit_two_pow_self]
      cases x.testBit t <;> rfl
    · rw [if_neg he, h2, Nat.testBit_xor, Nat.testBit_two_pow_of_ne he]
      cases x.testBit u <;> rfl
  · have h1 : (bitsOf (x ^^^ 2 ^ t) n)[u]? = none := by
      rw [List.getElem?_eq_none]
      rw [bitsOf_length]
      omega
    have h2 : (bitsOf x n)[u]? = none := by
      rw [List.getElem?_eq_none]
      rw [bitsOf_length]
      omega
    have hne : t ≠ u := by omega
    rw [h1, h2, if_neg hne]

theorem filter_eq_singleton_of_range (n t : ℕ) (ht : t < n) :
    (List.range n).filter (fun u => u = t) = [t] := by
  induction n with
  | zero => omega
  | succ n ih =>
      rw [List.range_succ, List.filter_append]
      by_cases h : t < n
      · rw [ih h]
        have : (List.filter (fun u => decide (u = t)) [n]) = [] := by
          simp
          omega
        rw [this, List.append_nil]
      · have hte : t = n := by omega
        subst hte
        have h1 : (List.range t).filter (fun u => decide (u = t)) = [] := by
          rw [List.filter_eq_nil_iff]
          intro a ha
          simp at ha ⊢
          omega
        rw [h1]
        simp

/-- Positions where two states differ, among the first `n` spins. -/
def differingPositions (s₁ s₂ : List Bool) (n : ℕ) : List ℕ :=
  (List.range n).filter (fun u => s₁.getD u false ≠ s₂.getD u false)

theorem differingPositions_of_xor_two_pow (x t n : ℕ) (ht : t < n) :
    differingPositions (bitsOf x n) (bitsOf (x ^^^ 2 ^ t) n) n = [t] := by
  unfold differingPositions
  have hcong : ∀ u ∈ List.range n,
      (decide (¬(bitsOf x n).getD u false =
        (bitsOf (x ^^^ 2 ^ t) n).getD u false)) = decide (u = t) := by
    intro u hu
    rw [List.mem_range] at hu
    rw [bitsOf_getD, bitsOf_getD, if_pos hu, if_pos hu]
    by_cases he : u = t
    · subst he
      rw [Nat.testBit_xor, Nat.testBit_two_pow_self]
      cases x.testBit u <;> simp
    · rw [Nat.testBit_xor, Nat.testBit_two_pow_of_ne (fun hc => he hc.symm)]
      cases x.testBit u <;> simp [he]
  rw [List.filter_congr hcong]
  exact filter_eq_singleton_of_range n t ht

/-- The changed bit position is below `n` when `1 ≤ i < 2^n`. -/
theorem trailingZeros_lt_of_lt (n i : ℕ) (h1 : 1 ≤ i) (h2 : i < 2 ^ n) :
    trailingZeros i < n := by
  have hg1 : grayCode (i - 1) < 2 ^ n := grayCode_lt_two_pow (by omega)
  have hg2 : grayCode i < 2 ^ n := grayCode_lt_two_pow h2
  have hx : grayCode (i - 1) ^^^ grayCode i < 2 ^ n :=
    Nat.xor_lt_two_pow hg1 hg2
  rw [grayCode_xor_pred i h1] at hx
  exact (Nat.pow_lt_pow_iff_right (by norm_num)).mp hx

theorem bitPositionChanged_gray (i : ℕ) (h1 : 1 ≤ i) :
    bitPositionChanged (grayCode (i - 1)) (grayCode i) =
      some (trailingZeros i) := by
  unfold bitPositionChanged
  rw [grayCode_xor_pred i h1]
  have hp : (2 : ℕ) ^ trailingZeros i ≠ 0 := by positivity
  simp [hp, trailingZeros_two_pow]

theorem grayCode_succ_eq_xor (i : ℕ) (h1 : 1 ≤ i) :
    grayCode i = grayCode (i - 1) ^^^ 2 ^ trailingZeros i := by
  have hswap : grayCode (i - 1) ^^^ (grayCode (i - 1) ^^^ grayCode i) =
      grayCode i := by
    rw [← Nat.xor_assoc, Nat.xor_self, Nat.zero_xor]
  rw [← hswap, grayCode_xor_pred i h1]

/-- One Gray step toggles exactly the spin at the changed bit. -/
theorem bitsOf_gray_step (n i : ℕ) (h1 : 1 ≤ i) (h2 : i < 2 ^ n) :
    bitsOf (grayCode i) n =
      (bitsOf (grayCode (i - 1)) n).set (trailingZeros i)
        (!(bitsOf (grayCode (i - 1)) n).getD (trailingZeros i) false) := by
  rw [grayCode_succ_eq_xor i h1]
  exact bitsOf_xor_two_pow (grayCode (i - 1)) (trailingZeros i) n
    (trailingZeros_lt_of_lt n i h1 h2)

/-- The Hamiltonian after one exact-solver step: flipped at the changed
Gray bit (if any). -/
theorem solveStep_ham (st : SolveState) (i : ℕ) :
    (solveStep st i).ham =
      match bitPositionChanged (grayCode (i - 1)) (grayCode i) with
      | some bitPos => flip_spin st.ham bitPos
      | none => st.ham := by
  simp only [solveStep]
  split
  · rfl
  · split <;> rfl

/-- C7.  For `n ≥ 1` and `1 ≤ i < 2^n`, the consecutive Gray codes
differ in exactly one bit — the bit at `trailing_zeros(g_prev XOR
g_curr)`, which is below `n` — `bit_position_changed` returns exactly
that position, the solver's step flips exactly that spin of the
Hamiltonian, and the corresponding states differ in exactly one
position. -/
theorem C7_gray_code_single_spin (n i : ℕ) (h1 : 1 ≤ i) (h2 : i < 2 ^ n) :
    ∃ t, grayCode (i - 1) ^^^ grayCode i = 2 ^ t ∧ t < n ∧
      trailingZeros (grayCode (i - 1) ^^^ grayCode i) = t ∧
      bitPositionChanged (grayCode (i - 1)) (grayCode i) = some t ∧
      (∀ st : SolveState, (solveStep st i).ham = flip_spin st.ham t) ∧
      bitsOf (grayCode i) n =
        (bitsOf (grayCode (i - 1)) n).set t
          (!(bitsOf (grayCode (i - 1)) n).getD t false) ∧
      differingPositions (bitsOf (grayCode (i - 1)) n)
        (bitsOf (grayCode i) n) n = [t] := by
  refine ⟨trailingZeros i, grayCode_xor_pred i h1,
    trailingZeros_lt_of_lt n i h1 h2, ?_, bitPositionChanged_gray i h1,
    ?_, bitsOf_gray_step n i h1 h2, ?_⟩
  · rw [grayCode_xor_pred i h1, trailingZeros_two_pow]
  · intro st
    rw [solveStep_ham, bitPositionChanged_gray i h1]
  · rw [grayCode_succ_eq_xor i h1]
    exact differingPositions_of_xor_two_pow (grayCode (i - 1))
      (trailingZeros i) n (trailingZeros_lt_of_lt n i h1 h2)

/-- C7 witness: the single-bit property at `n = 2`, `i = 2`
(`g_prev = gray 1 = 1`, `g_curr = gray 2 = 3`). -/
theorem C7_gray_code_single_spin_witness :
    (1 ≤ 2 ∧ 2 < 2 ^ 2) ∧
    (∃ t, grayCode (2 - 1) ^^^ grayCode 2 = 2 ^ t ∧ t < 2 ∧
      trailingZeros (grayCode (2 - 1) ^^^ grayCode 2) = t ∧
      bitPositionChanged (grayCode (2 - 1)) (grayCode 2) = some t ∧
      (∀ st : SolveState, (solveStep st 2).ham = flip_spin st.ham t) ∧
      bitsOf (grayCode 2) 2 =
        (bitsOf (grayCode (2 - 1)) 2).set t
          (!(bitsOf (grayCode (2 - 1)) 2).getD t false) ∧
      differingPositions (bitsOf (grayCode (2 - 1)) 2)
        (bitsOf (grayCode 2) 2) 2 = [t]) :=
  ⟨⟨by decide, by decide⟩,
    C7_gray_code_single_spin 2 2 (by decide) (by decide)⟩

/-! ## C8 — the PRNG stream is independent of the problem -/

theorem annealStep_rng (genRange : ℕ → ℕ → ℕ × ℕ) (genUnit : ℕ → ℚ × ℕ)
    (expQ : ℚ → ℚ) (coolingRate : ℚ) (trace : Bool)
    (st : AnnealState) (sweep : ℕ) :
    (annealStep genRange genUnit expQ coolingRate trace st sweep).rng =
      (genUnit (genRange st.ham.spins.length st.rng).2).2 := by
  simp only [annealStep]
  split
  · split
    · rfl
    · split
      · split <;> rfl
      · rfl
  · rfl

theorem annealStep_draws (genRange : ℕ → ℕ → ℕ × ℕ) (genUnit : ℕ → ℚ × ℕ)
    (expQ : ℚ → ℚ) (coolingRate : ℚ) (trace : Bool)
    (st : AnnealState) (sweep : ℕ) :
    (annealStep genRange genUnit expQ coolingRate trace st sweep).draws =
      st.draws ++ [((genRange st.ham.spins.length st.rng).1,
        (genUnit (genRange st.ham.spins.length st.rng).2).1)] := by
  simp only [annealStep]
  split
  · split
    · rfl
    · split
      · split <;> rfl
      · rfl
  · rfl

theorem annealStep_spins_length (genRange : ℕ → ℕ → ℕ × ℕ)
    (genUnit : ℕ → ℚ × ℕ) (expQ : ℚ → ℚ) (coolingRate : ℚ) (trace : Bool)
    (st : AnnealState) (sweep : ℕ) :
    (annealStep genRange genUnit expQ coolingRate trace st
      sweep).ham.spins.length = st.ham.spins.length := by
  simp only [annealStep]
  split
  · split
    · exact flip_spin_spins_length ..
    · split
      · split <;> exact flip_spin_spins_length ..
      · exact flip_spin_spins_length ..
  · rw [flip_spin_spins_length, flip_spin_spins_length]

/-- Two annealing loops over the same sweep list, with the same PRNG and
bit-count but arbitrary different cooling rates, trace flags and
Hamiltonians, make identical PRNG draws and end in the same PRNG
state. -/
theorem annealLoop_draws_eq (genRange : ℕ → ℕ → ℕ × ℕ)
    (genUnit : ℕ → ℚ × ℕ) (expQ : ℚ → ℚ) (cr₁ cr₂ : ℚ) (tr₁ tr₂ : Bool)
    (sweeps : List ℕ) (st₁ st₂ : AnnealState)
    (hrng : st₁.rng = st₂.rng) (hdraws : st₁.draws = st₂.draws)
    (hlen : st₁.ham.spins.length = st₂.ham.spins.length) :
    (sweeps.foldl (annealStep genRange genUnit expQ cr₁ tr₁) st₁).rng =
      (sweeps.foldl (annealStep genRange genUnit expQ cr₂ tr₂) st₂).rng ∧
    (sweeps.foldl (annealStep genRange genUnit expQ cr₁ tr₁) st₁).draws =
      (sweeps.foldl (annealStep genRange genUnit expQ cr₂ tr₂) st₂).draws ∧
    (sweeps.foldl (annealStep genRange genUnit expQ cr₁ tr₁)
        st₁).ham.spins.length =
      (sweeps.foldl (annealStep genRange genUnit expQ cr₂ tr₂)
        st₂).ham.spins.length := by
  induction sweeps generalizing st₁ st₂ with
  | nil => exact ⟨hrng, hdraws, hlen⟩
  | cons s rest ih =>
      rw [List.foldl_cons, List.foldl_cons]
      exact ih _ _
        (by rw [annealStep_rng, annealStep_rng, hrng, hlen])
        (by rw [annealStep_draws, annealStep_draws, hrng, hdraws, hlen])
        (by rw [annealStep_spins_length, annealStep_spins_length, hlen])

theorem zipWith_toggle_replicate (k : ℕ) :
    List.zipWith (fun (s b : Bool) => if b then !s else s)
      (List.replicate k false) (List.replicate k false) =
      List.replicate k false := by
  induction k with
  | zero => rfl
  | succ k ih => simp [List.replicate_succ, ih]

theorem getD_replicate_false (k i : ℕ) :
    (List.replicate k false).getD i false = false := by
  rw [List.getD_eq_getElem?_getD]
  by_cases h : i < k
  · simp [List.getElem?_replicate, h]
  · rw [List.getElem?_eq_none (by simpa using Nat.le_of_not_lt h)]
    rfl

/-- Shape of a `new` call from either solver (`initial_state =
Some(vec![false; field.len()])`) when the flattened interaction indices
have maximum `m` and the field has the matching length `m + 1`. -/
theorem new_solver_eq (ints : Interactions) (field : List ℚ) (m : ℕ)
    (hmax : (interactionIndices ints).max? = some m)
    (hfl : field.length = m + 1) :
    new ints field (some (List.replicate field.length false)) =
      (ints.foldlM
        (writeInteraction (m + 1) (List.replicate (m + 1) false))
        (List.replicate ((m + 1) * (m + 1 - 1) / 2) (0 : ℚ))).map
        (fun lin =>
          { spins := List.replicate (m + 1) false
            linearized_interactions := lin
            external_magnetic_field := field
            interaction_energy := lin
            magnetic_field_energy :=
              (List.range (m + 1)).map (fun i => -(field.getD i 0)) }) := by
  simp only [new, hmax, pure, Except.pure, Bind.bind, Except.bind]
  rw [if_neg (by omega)]
  rw [if_neg (by rw [List.length_replicate]; omega)]
  rw [hfl, zipWith_toggle_replicate]
  have hmag : (List.range (m + 1)).map (fun i =>
      if (List.replicate (m + 1) false).getD i false then field.getD i 0
      else -(field.getD i 0)) =
      (List.range (m + 1)).map (fun i => -(field.getD i 0)) := by
    apply List.map_congr_left
    intro i _
    rw [getD_replicate_false]
    rfl
  rw [hmag]
  cases ints.foldlM
      (writeInteraction (m + 1) (List.replicate (m + 1) false))
      (List.replicate ((m + 1) * (m + 1 - 1) / 2) (0 : ℚ)) <;> rfl

theorem new_solver_eq_error_unwrap (ints : Interactions) (field : List ℚ)
    (init : Option State)
    (hmax : (interactionIndices ints).max? = none) :
    new ints field init = .error Panic.unwrapNone := by
  simp only [new, hmax]
  rfl

theorem new_solver_eq_error_assert (ints : Interactions) (field : List ℚ)
    (m : ℕ) (hmax : (interactionIndices ints).max? = some m)
    (hfl : field.length ≠ m + 1) :
    new ints field (some (List.replicate field.length false)) =
      .error Panic.assertFail := by
  simp only [new, hmax, pure, Except.pure, Bind.bind, Except.bind]
  rw [if_pos (by omega)]

/-- Successful construction from the solvers' call pattern yields a
Hamiltonian with one spin per field entry. -/
theorem new_ok_spins_length (ints : Interactions) (field : List ℚ)
    (h' : TwoLocalHamiltonian)
    (hok : new ints field (some (List.replicate field.length false)) =
      .ok h') : h'.spins.length = field.length := by
  cases hmax : (interactionIndices ints).max? with
  | none =>
      rw [new_solver_eq_error_unwrap ints field _ hmax] at hok
      exact Except.noConfusion hok
  | some m =>
      by_cases hf : field.length = m + 1
      · rw [new_solver_eq ints field m hmax hf] at hok
        cases hfold : ints.foldlM
            (writeInteraction (m + 1) (List.replicate (m + 1) false))
            (List.replicate ((m + 1) * (m + 1 - 1) / 2) (0 : ℚ)) with
        | error e =>
            rw [hfold] at hok
            exact Except.noConfusion hok
        | ok lin =>
            rw [hfold] at hok
            simp only [Except.map, Except.ok.injEq] at hok
            rw [← hok]
            simp [hf]
      · rw [new_solver_eq_error_assert ints field m hmax hf] at hok
        exact Except.noConfusion hok

/-- C8.  The acceptance random number is drawn on every sweep,
unconditionally, before the accept/reject decision: two runs with the
same seed, the same sweep count and the same number of spins — on
arbitrary different interactions, fields, temperatures and trace flags —
make the identical sequence of PRNG draws (one spin index and one
uniform number per sweep) and end in the same PRNG state, for every
model of the PRNG and of `exp`/`powf`. -/
theorem C8_prng_stream_independent_of_problem
    (genRange : ℕ → ℕ → ℕ × ℕ) (genUnit : ℕ → ℚ × ℕ)
    (expQ : ℚ → ℚ) (powQ : ℚ → ℚ → ℚ)
    (ints₁ ints₂ : Interactions) (field₁ field₂ : List ℚ)
    (o₁ o₂ : Option SimulatedAnnealingConfiguration)
    (hseed : (mergeConfiguration o₁).seed = (mergeConfiguration o₂).seed)
    (hsweeps : (mergeConfiguration o₁).sweeps =
      (mergeConfiguration o₂).sweeps)
    (hlen : field₁.length = field₂.length)
    (h₁ : (annealRun genRange genUnit expQ powQ ints₁ field₁ o₁).isOk =
      true)
    (h₂ : (annealRun genRange genUnit expQ powQ ints₂ field₂ o₂).isOk =
      true) :
    (annealRun genRange genUnit expQ powQ ints₁ field₁ o₁).map
        (fun f => (f.draws, f.rng)) =
      (annealRun genRange genUnit expQ powQ ints₂ field₂ o₂).map
        (fun f => (f.draws, f.rng)) := by
  cases hn₁ : new ints₁ field₁ (some (List.replicate field₁.length false))
    with
  | error e =>
      exfalso
      rw [annealRun] at h₁
      simp only [hn₁, Except.map] at h₁
      simp [Except.isOk, Except.toBool] at h₁
  | ok ham₁ =>
      cases hn₂ : new ints₂ field₂
        (some (List.replicate field₂.length false)) with
      | error e =>
          exfalso
          rw [annealRun] at h₂
          simp only [hn₂, Except.map] at h₂
          simp [Except.isOk, Except.toBool] at h₂
      | ok ham₂ =>
          rw [annealRun, annealRun]
          simp only [hn₁, hn₂, Except.map]
          have hl₁ : ham₁.spins.length = field₁.length :=
            new_ok_spins_length ints₁ field₁ ham₁ hn₁
          have hl₂ : ham₂.spins.length = field₂.length :=
            new_ok_spins_length ints₂ field₂ ham₂ hn₂
          rw [← hsweeps]
          have hmain := annealLoop_draws_eq genRange genUnit expQ
            (powQ ((mergeConfiguration o₁).final_temperature /
                (mergeConfiguration o₁).initial_temperature)
              (1 / ((mergeConfiguration o₁).sweeps : ℚ)))
            (powQ ((mergeConfiguration o₂).final_temperature /
                (mergeConfiguration o₂).initial_temperature)
              (1 / ((mergeConfiguration o₁).sweeps : ℚ)))
            (mergeConfiguration o₁).trace (mergeConfiguration o₂).trace
            (List.range' 1 ((mergeConfiguration o₁).sweeps - 1))
            { ham := ham₁, rng := (mergeConfiguration o₁).seed
              temperature := (mergeConfiguration o₁).initial_temperature
              lowestEnergy := current_energy ham₁
              groundStates := [(current_energy ham₁, ham₁.spins)]
              groundStateUpdateTime := [0], draws := [] }
            { ham := ham₂, rng := (mergeConfiguration o₂).seed
              temperature := (mergeConfiguration o₂).initial_temperature
              lowestEnergy := current_energy ham₂
              groundStates := [(current_energy ham₂, ham₂.spins)]
              groundStateUpdateTime := [0], draws := [] }
            hseed rfl (by rw [hl₁, hl₂, hlen])
          rw [Except.ok.injEq, Prod.mk.injEq]
          exact ⟨hmain.2.1, hmain.1⟩

/-- A two-sweep override used by the C8 witness. -/
def c8override₁ : SimulatedAnnealingConfiguration :=
  { defaultConfiguration with sweeps := 2, seed := 7 }

/-- The same override with `trace` set, for the second witness run. -/
def c8override₂ : SimulatedAnnealingConfiguration :=
  { defaultConfiguration with sweeps := 2, seed := 7, trace := true }

/-- C8 witness: two one-sweep runs on different problems with the same
seed, sweep count and spin count make the same draws. -/
theorem C8_prng_stream_independent_of_problem_witness :
    ((mergeConfiguration (some c8override₁)).seed =
      (mergeConfiguration (some c8override₂)).seed) ∧
    ((mergeConfiguration (some c8override₁)).sweeps =
      (mergeConfiguration (some c8override₂)).sweeps) ∧
    ([(0 : ℚ), 0].length = [(3 : ℚ), 4].length) ∧
    (annealRun (fun n s => (s % n, s + 1)) (fun s => (1 / 2, s + 1))
        (fun x => x) (fun a _ => a) [(0, 1, 1)] [0, 0]
        (some c8override₁)).isOk = true ∧
    (annealRun (fun n s => (s % n, s + 1)) (fun s => (1 / 2, s + 1))
        (fun x => x) (fun a _ => a) [(0, 1, -3)] [3, 4]
        (some c8override₂)).isOk = true ∧
    (annealRun (fun n s => (s % n, s + 1)) (fun s => (1 / 2, s + 1))
        (fun x => x) (fun a _ => a) [(0, 1, 1)] [0, 0]
        (some c8override₁)).map (fun f => (f.draws, f.rng)) =
      (annealRun (fun n s => (s % n, s + 1)) (fun s => (1 / 2, s + 1))
        (fun x => x) (fun a _ => a) [(0, 1, -3)] [3, 4]
        (some c8override₂)).map (fun f => (f.draws, f.rng)) :=
  ⟨rfl, rfl, rfl, by with_unfolding_all decide, by with_unfolding_all decide,
    C8_prng_stream_independent_of_problem
      (fun n s => (s % n, s + 1)) (fun s => (1 / 2, s + 1))
      (fun x => x) (fun a _ => a) [(0, 1, 1)] [(0, 1, -3)] [0, 0] [3, 4]
      (some c8override₁) (some c8override₂)
      rfl rfl rfl (by with_unfolding_all decide)
      (by with_unfolding_all decide)⟩

/-! ## C2 — exact-solver analysis: valid inputs and construction -/

/-- `t` couples the unordered pair `{i, j}`. -/
def pairMatches (t : ℕ × ℕ × ℚ) (i j : ℕ) : Prop :=
  (t.1 = i ∧ t.2.1 = j) ∨ (t.1 = j ∧ t.2.1 = i)

instance (t : ℕ × ℕ × ℚ) (i j : ℕ) : Decidable (pairMatches t i j) := by
  unfold pairMatches
  exact inferInstance

/-- The coupling the interaction list places on the unordered pair
`{i, j}` (summed; with no duplicate pairs, at most one term). -/
def Jbare (ints : Interactions) (i j : ℕ) : ℚ :=
  ((ints.filter (fun t => decide (pairMatches t i j))).map
    (fun t => t.2.2)).sum

/-- No two entries couple the same unordered pair. -/
def noDuplicatePairs (ints : Interactions) : Prop :=
  List.Pairwise (fun t u => ¬pairMatches t u.1 u.2.1) ints

instance (ints : Interactions) : Decidable (noDuplicatePairs ints) := by
  unfold noDuplicatePairs
  exact inferInstance

theorem Jbare_nil (i j : ℕ) : Jbare [] i j = 0 := rfl

theorem Jbare_cons (t : ℕ × ℕ × ℚ) (ints : Interactions) (i j : ℕ) :
    Jbare (t :: ints) i j =
      (if pairMatches t i j then t.2.2 else 0) + Jbare ints i j := by
  unfold Jbare
  rw [List.filter_cons]
  by_cases h : pairMatches t i j
  · simp [h]
  · simp [h]

theorem pairMatches_symm (t : ℕ × ℕ × ℚ) (i j : ℕ) :
    pairMatches t i j ↔ pairMatches t j i := by
  unfold pairMatches
  tauto

theorem Jbare_symm (ints : Interactions) (i j : ℕ) :
    Jbare ints i j = Jbare ints j i := by
  unfold Jbare
  have hf : ints.filter (fun t => decide (pairMatches t i j)) =
      ints.filter (fun t => decide (pairMatches t j i)) := by
    apply List.filter_congr
    intro t _
    simp [pairMatches_symm t i j]
  rw [hf]

theorem sum_set_eq (l : List ℚ) (i : ℕ) (v : ℚ) (h : i < l.length) :
    (l.set i v).sum = l.sum - l.getD i 0 + v := by
  induction l generalizing i with
  | nil => simp at h
  | cons a l ih =>
      cases i with
      | zero => simp [List.set, List.getD_cons_zero]; ring
      | succ i =>
          have hi : i < l.length := by simpa using h
          simp only [List.set, List.sum_cons, List.getD_cons_succ, ih i hi]
          ring

theorem sum_addAt (l : List ℚ) (i : ℕ) (d : ℚ) :
    (addAt l i d).sum = l.sum + if i < l.length then d else 0 := by
  unfold addAt
  by_cases h : i < l.length
  · rw [sum_set_eq l i _ h, if_pos h]
    ring
  · rw [List.set_eq_of_length_le (by omega), if_neg h, add_zero]

theorem sum_map_add {α : Type _} (l : List α) (f g : α → ℚ) :
    (l.map (fun x => f x + g x)).sum = (l.map f).sum + (l.map g).sum := by
  induction l with
  | nil => simp
  | cons a l ih => simp [ih]; ring

theorem sum_exchange {α : Type _} (l₁ : List ℕ) (l₂ : List α)
    (f : ℕ → α → ℚ) :
    (l₁.map (fun j => (l₂.map (f j)).sum)).sum =
      (l₂.map (fun t => (l₁.map (fun j => f j t)).sum)).sum := by
  induction l₁ with
  | nil => simp
  | cons j l₁ ih =>
      rw [List.map_cons, List.sum_cons, ih, ← sum_map_add]
      congr 1

theorem filter_map_sum_eq {α : Type _} (l : List α) (p : α → Prop)
    [DecidablePred p] (g : α → ℚ) :
    ((l.filter (fun t => decide (p t))).map g).sum =
      (l.map (fun t => if p t then g t else 0)).sum := by
  induction l with
  | nil => rfl
  | cons a l ih =>
      rw [List.filter_cons, List.map_cons, List.sum_cons]
      by_cases h : p a
      · simp [h, ih]
      · simp [h, ih]

theorem sum_range_single (n o : ℕ) (c : ℕ → ℚ) (ho : o < n) :
    ((List.range n).map (fun j => if j = o then c j else 0)).sum = c o := by
  induction n with
  | zero => omega
  | succ n ih =>
      rw [List.range_succ, List.map_append, List.sum_append]
      by_cases h : o < n
      · rw [ih h]
        simp only [List.map_cons, List.map_nil, List.sum_cons, List.sum_nil]
        rw [if_neg (by omega)]
        ring
      · have hon : o = n := by omega
        subst hon
        have hz : ((List.range o).map
            (fun j => if j = o then c j else 0)).sum = 0 := by
          have : ∀ j ∈ List.range o, (if j = o then c j else 0) = 0 := by
            intro j hj
            rw [List.mem_range] at hj
            rw [if_neg (by omega)]
          rw [List.map_congr_left this]
          simp
        rw [hz]
        simp

theorem sum_eq_getD_range (l : List ℚ) :
    l.sum = ((List.range l.length).map (fun i => l.getD i 0)).sum := by
  induction l with
  | nil => rfl
  | cons a l ih =>
      rw [List.sum_cons, List.length_cons, List.range_succ_eq_map,
        List.map_cons, List.sum_cons, List.getD_cons_zero, List.map_map]
      congr 1

theorem getD_replicate {α : Type _} (k i : ℕ) (a : α) :
    (List.replicate k a).getD i a = a := by
  rw [List.getD_eq_getElem?_getD]
  by_cases h : i < k
  · simp [List.getElem?_replicate, h]
  · rw [List.getElem?_eq_none (by simpa using Nat.le_of_not_lt h)]
    rfl

/-- If `t` does not couple the unordered pair of a valid entry `u`, their
canonical slots differ. -/
theorem kIndex_ne_of_not_matches (n : ℕ) (t u : ℕ × ℕ × ℚ)
    (ht : t.1 < n ∧ t.2.1 < n ∧ t.1 ≠ t.2.1)
    (hu : u.1 < n ∧ u.2.1 < n ∧ u.1 ≠ u.2.1)
    (hnm : ¬pairMatches t u.1 u.2.1) :
    kIndex (min t.1 t.2.1) (max t.1 t.2.1) n ≠
      kIndex (min u.1 u.2.1) (max u.1 u.2.1) n := by
  intro heq
  have h1 := kIndex_injective n (min t.1 t.2.1) (max t.1 t.2.1)
    (min u.1 u.2.1) (max u.1 u.2.1) (by omega) (by omega) (by omega)
    (by omega) heq
  apply hnm
  unfold pairMatches
  omega

/-- The interaction-placement fold of `new` on an all-false initial
state: it succeeds on valid interactions, preserves the array length,
adds the bare coupling into each pair's canonical (previously zero)
slot, and adds the sum of all couplings to the array sum. -/
theorem foldWrite_ok (n : ℕ) (ints : Interactions) (lin : List ℚ)
    (hidx : ∀ t ∈ ints, t.1 < n ∧ t.2.1 < n ∧ t.1 ≠ t.2.1)
    (hnodup : noDuplicatePairs ints)
    (hlen : lin.length = n * (n - 1) / 2)
    (hzero : ∀ t ∈ ints,
      lin.getD (kIndex (min t.1 t.2.1) (max t.1 t.2.1) n) 0 = 0) :
    ∃ lin', ints.foldlM (writeInteraction n (List.replicate n false)) lin =
        .ok lin' ∧
      lin'.length = lin.length ∧
      (∀ i j, i < j → j < n → lin'.getD (kIndex i j n) 0 =
        Jbare ints i j + lin.getD (kIndex i j n) 0) ∧
      lin'.sum = lin.sum + (ints.map (fun t => t.2.2)).sum := by
  induction ints generalizing lin with
  | nil =>
      refine ⟨lin, rfl, rfl, ?_, by simp⟩
      intro i j _ _
      rw [Jbare_nil, zero_add]
  | cons t ints ih =>
      obtain ⟨ha, hb, hab⟩ := hidx t (List.mem_cons_self t ints)
      have hsm : min t.1 t.2.1 < max t.1 t.2.1 := by omega
      have hgt : max t.1 t.2.1 < n := by omega
      have hk := kIndex_lt_total n (min t.1 t.2.1) (max t.1 t.2.1) hsm hgt
      have hwrite : writeInteraction n (List.replicate n false) lin t =
          .ok (lin.set (kIndex (min t.1 t.2.1) (max t.1 t.2.1) n)
            (t.2.2 * (-1) * (-1))) := by
        simp only [writeInteraction]
        rw [if_neg (by omega), if_neg (by omega)]
        rw [getD_replicate, getD_replicate]
        rw [if_pos (show kIndex (min t.1 t.2.1) (max t.1 t.2.1) n <
          lin.length by rw [hlen]; exact hk)]
        norm_num
      set kt := kIndex (min t.1 t.2.1) (max t.1 t.2.1) n with hkt
      set lin₁ := lin.set kt (t.2.2 * (-1) * (-1)) with hlin₁
      have hlen₁ : lin₁.length = n * (n - 1) / 2 := by
        rw [hlin₁, List.length_set, hlen]
      have hzero_t : lin.getD kt 0 = 0 :=
        hzero t (List.mem_cons_self t ints)
      have hzero₁ : ∀ u ∈ ints,
          lin₁.getD (kIndex (min u.1 u.2.1) (max u.1 u.2.1) n) 0 = 0 := by
        intro u hu
        obtain ⟨hua, hub, huab⟩ := hidx u (List.mem_cons_of_mem t hu)
        have hne : kt ≠ kIndex (min u.1 u.2.1) (max u.1 u.2.1) n := by
          rw [hkt]
          exact kIndex_ne_of_not_matches n t u ⟨ha, hb, hab⟩
            ⟨hua, hub, huab⟩
            ((List.pairwise_cons.mp hnodup).1 u hu)
        rw [hlin₁, getD_set, if_neg (fun hc => hne hc.1)]
        exact hzero u (List.mem_cons_of_mem t hu)
      obtain ⟨lin', hfold, hlen', hchar', hsum'⟩ := ih lin₁
        (fun u hu => hidx u (List.mem_cons_of_mem t hu))
        (List.pairwise_cons.mp hnodup).2 hlen₁ hzero₁
      refine ⟨lin', ?_, ?_, ?_, ?_⟩
      · rw [List.foldlM_cons, hwrite]
        simpa using hfold
      · rw [hlen', hlin₁, List.length_set]
      · intro i j hij hjn
        rw [hchar' i j hij hjn, Jbare_cons]
        by_cases hm : pairMatches t i j
        · rw [if_pos hm]
          have heqk : kt = kIndex i j n := by
            unfold pairMatches at hm
            have h1 : min t.1 t.2.1 = i := by omega
            have h2 : max t.1 t.2.1 = j := by omega
            rw [hkt, h1, h2]
          rw [← heqk, hlin₁, getD_set,
            if_pos ⟨rfl, by rw [hlen]; exact heqk ▸ hk⟩, hzero_t]
          ring
        · rw [if_neg hm]
          have hminmax : kIndex (min i j) (max i j) n = kIndex i j n := by
            have h1 : min i j = i := by omega
            have h2 : max i j = j := by omega
            rw [h1, h2]
          have hnek : kt ≠ kIndex i j n := by
            rw [hkt, ← hminmax]
            exact kIndex_ne_of_not_matches n t (i, j, 0) ⟨ha, hb, hab⟩
              ⟨show i < n by omega, show j < n by omega,
                show i ≠ j by omega⟩ hm
          rw [hlin₁, getD_set, if_neg (fun hc => hnek hc.1)]
          ring
      · rw [hsum', hlin₁, sum_set_eq lin kt _ (by rw [hlen]; exact hk),
          hzero_t, List.map_cons, List.sum_cons]
        ring

/-- The representation invariant tying a live Hamiltonian to its
construction inputs: the two Fenwick contents carry exactly the current
signed contributions (spec I3/I4), the linearised array carries the bare
couplings (its entries were written with the all-false initial sign
`(−1)·(−1) = +1`), and the lengths are fixed. -/
structure HamInv (ints : Interactions) (field : List ℚ) (n : ℕ)
    (h : TwoLocalHamiltonian) : Prop where
  spins_len : h.spins.length = n
  field_eq : h.external_magnetic_field = field
  field_len : field.length = n
  lin_len : h.linearized_interactions.length = n * (n - 1) / 2
  interE_len : h.interaction_energy.length = n * (n - 1) / 2
  magE_len : h.magnetic_field_energy.length = n
  lin_char : ∀ i j, i < j → j < n →
    h.linearized_interactions.getD (kIndex i j n) 0 = Jbare ints i j
  interE_sum : h.interaction_energy.sum = (ints.map (fun t =>
    t.2.2 * spinValue h.spins t.1 * spinValue h.spins t.2.1)).sum
  magE_char : ∀ i, i < n →
    h.magnetic_field_energy.getD i 0 = spinValue h.spins i * field.getD i 0

/-- Construction from valid inputs (as both solvers call it) succeeds,
starts in the all-false state and establishes the invariant. -/
theorem new_ok_of_valid (ints : Interactions) (field : List ℚ) (m : ℕ)
    (hmax : (interactionIndices ints).max? = some m)
    (hfl : field.length = m + 1)
    (hidx : ∀ t ∈ ints, t.1 < m + 1 ∧ t.2.1 < m + 1 ∧ t.1 ≠ t.2.1)
    (hnodup : noDuplicatePairs ints) :
    ∃ h, new ints field (some (List.replicate field.length false)) =
        .ok h ∧
      h.spins = List.replicate (m + 1) false ∧
      HamInv ints field (m + 1) h := by
  obtain ⟨lin', hfold, hlen', hchar', hsum'⟩ :=
    foldWrite_ok (m + 1) ints
      (List.replicate ((m + 1) * (m + 1 - 1) / 2) (0 : ℚ))
      hidx hnodup (by rw [List.length_replicate])
      (fun t _ => getD_replicate _ _ _)
  refine ⟨{ spins := List.replicate (m + 1) false
            linearized_interactions := lin'
            external_magnetic_field := field
            interaction_energy := lin'
            magnetic_field_energy :=
              (List.range (m + 1)).map (fun i => -(field.getD i 0)) },
    ?_, rfl, ?_⟩
  · rw [new_solver_eq ints field m hmax hfl, hfold]
    rfl
  · have hrlen : (List.replicate ((m + 1) * (m + 1 - 1) / 2) (0 : ℚ)).length
        = (m + 1) * (m + 1 - 1) / 2 := List.length_replicate ..
    refine ⟨List.length_replicate .., rfl, hfl, ?_, ?_, ?_, ?_, ?_, ?_⟩
    · rw [hlen', hrlen]
    · rw [hlen', hrlen]
    · simp
    · intro i j hij hjn
      rw [hchar' i j hij hjn, getD_replicate, add_zero]
    · rw [hsum']
      have hz : (List.replicate ((m + 1) * (m + 1 - 1) / 2) (0 : ℚ)).sum
          = 0 := by simp
      rw [hz, zero_add]
      congr 1
      apply List.map_congr_left
      intro t _
      have hsv : ∀ u, spinValue (List.replicate (m + 1) false) u = -1 := by
        intro u
        unfold spinValue
        rw [getD_replicate]
        rfl
      rw [hsv, hsv]
      ring
    · intro i hi
      unfold spinValue
      rw [getD_replicate]
      have : ((List.range (m + 1)).map
          (fun i => -(field.getD i 0))).getD i 0 = -(field.getD i 0) := by
        rw [List.getD_eq_getElem?_getD, List.getElem?_map,
          List.getElem?_range hi]
        rfl
      rw [this]
      norm_num

/-- Under the invariant, the incremental energy equals the from-scratch
Ising sum over the current state. -/
theorem current_energy_eq_groundTruth (ints : Interactions)
    (field : List ℚ) (n : ℕ) (h : TwoLocalHamiltonian)
    (inv : HamInv ints field n h) :
    current_energy h = groundTruthEnergy ints field h.spins := by
  unfold current_energy groundTruthEnergy
  rw [inv.interE_sum]
  have hmag : h.magnetic_field_energy.sum =
      ((List.range field.length).map
        (fun i => field.getD i 0 * spinValue h.spins i)).sum := by
    rw [sum_eq_getD_range, inv.magE_len, inv.field_len]
    congr 1
    apply List.map_congr_left
    intro i hi
    rw [List.mem_range] at hi
    rw [inv.magE_char i hi]
    ring
  rw [hmag]

/-- The amount one loop iteration of `flip_spin` adds to the total
interaction energy (for an array of length `L`). -/
def flipSumContribution (lin : List ℚ) (spin : ℕ) (sc : ℚ)
    (sp : List Bool) (n L j : ℕ) : ℚ :=
  if j ≠ spin ∧ kIndex (min spin j) (max spin j) n < L then
    (lin[kIndex (min spin j) (max spin j) n]?).getD 0 * sc *
      (if sp.getD j false then 1 else -1)
  else 0

theorem flipInterBody_sum (lin : List ℚ) (spin : ℕ) (sc : ℚ)
    (sp : List Bool) (n : ℕ) (acc : List ℚ) (j : ℕ) :
    (flipInterBody lin spin sc sp n acc j).sum =
      acc.sum + flipSumContribution lin spin sc sp n acc.length j := by
  by_cases hj : j ≠ spin
  · cases hget : lin[kIndex (min spin j) (max spin j) n]? with
    | none =>
        simp [flipInterBody, flipSumContribution, hj, hget]
    | some w =>
        simp only [flipInterBody, flipSumContribution, hj, hget, if_true,
          ne_eq, not_false_eq_true, true_and, sum_addAt, Option.getD_some]
  · simp [flipInterBody, flipSumContribution, hj]

theorem flipFold_sum (lin : List ℚ) (spin : ℕ) (sc : ℚ)
    (sp : List Bool) (n : ℕ) (js : List ℕ) (acc : List ℚ) :
    (js.foldl (flipInterBody lin spin sc sp n) acc).sum =
      acc.sum +
        (js.map (flipSumContribution lin spin sc sp n acc.length)).sum := by
  induction js generalizing acc with
  | nil => simp
  | cons j js ih =>
      rw [List.foldl_cons, ih, flipInterBody_length, List.map_cons,
        List.sum_cons, flipInterBody_sum]
      ring

theorem sum_map_mul_right {α : Type _} (l : List α) (f : α → ℚ) (c : ℚ) :
    (l.map f).sum * c = (l.map (fun x => f x * c)).sum := by
  induction l with
  | nil => simp
  | cons a l ih => simp [← ih]; ring

theorem spinValue_set_ne (sp : List Bool) (s j : ℕ) (v : Bool)
    (hne : j ≠ s) : spinValue (sp.set s v) j = spinValue sp j := by
  unfold spinValue
  have hg : (sp.set s v).getD j false = sp.getD j false := by
    rw [getD_set, if_neg (fun hc => hne hc.1.symm)]
  rw [hg]

theorem spinValue_toggle_self (sp : List Bool) (s : ℕ)
    (hs : s < sp.length) :
    spinValue (sp.set s (!sp.getD s false)) s = -spinValue sp s := by
  unfold spinValue
  have hg : (sp.set s (!sp.getD s false)).getD s false =
      !sp.getD s false := by
    rw [getD_set, if_pos ⟨rfl, hs⟩]
  rw [hg]
  cases sp.getD s false <;> norm_num

/-- The invariant is preserved by flipping any valid spin. -/
theorem HamInv.flip {ints : Interactions} {field : List ℚ} {n : ℕ}
    {h : TwoLocalHamiltonian} (inv : HamInv ints field n h)
    (hidx : ∀ t ∈ ints, t.1 < n ∧ t.2.1 < n ∧ t.1 ≠ t.2.1)
    (s : ℕ) (hs : s < n) : HamInv ints field n (flip_spin h s) := by
  have hsl : s < h.spins.length := by rw [inv.spins_len]; exact hs
  set sp' := h.spins.set s (!h.spins.getD s false) with hsp'
  have hn' : sp'.length = n := by rw [hsp', List.length_set, inv.spins_len]
  set sc : ℚ := if sp'.getD s false then 2 else -2 with hscdef
  have hsc : sc = 2 * spinValue sp' s := by
    rw [hscdef]
    unfold spinValue
    cases sp'.getD s false <;> norm_num
  have hsv_ne : ∀ j, j ≠ s → spinValue sp' j = spinValue h.spins j :=
    fun j hj => spinValue_set_ne h.spins s j _ hj
  have hsv_s : spinValue sp' s = -spinValue h.spins s :=
    spinValue_toggle_self h.spins s hsl
  have hspins : (flip_spin h s).spins = sp' := flip_spin_spins h s
  refine ⟨?_, ?_, inv.field_len, ?_, ?_, ?_, ?_, ?_, ?_⟩
  · rw [hspins, hn']
  · rw [flip_spin_field, inv.field_eq]
  · rw [flip_spin_lin, inv.lin_len]
  · rw [flip_spin_interE, flipFold_length, inv.interE_len]
  · rw [flip_spin_magE]
    cases hfs : h.external_magnetic_field[s]? <;>
      simp [length_addAt, inv.magE_len]
  · intro i j hij hjn
    rw [flip_spin_lin]
    exact inv.lin_char i j hij hjn
  · -- the interaction-energy sum tracks the current signed contributions
    rw [flip_spin_interE, ← hsp', hn', ← hscdef, flipFold_sum,
      inv.interE_sum, inv.interE_len, hspins]
    have hterm : ∀ j ∈ List.range n,
        flipSumContribution h.linearized_interactions s sc sp' n
          (n * (n - 1) / 2) j =
        if j ≠ s then Jbare ints s j * sc * spinValue sp' j else 0 := by
      intro j hj
      rw [List.mem_range] at hj
      unfold flipSumContribution
      by_cases hjs : j ≠ s
      · have hmm : min s j < max s j := by omega
        have hmx : max s j < n := by omega
        have hk := kIndex_lt_total n (min s j) (max s j) hmm hmx
        rw [if_pos ⟨hjs, hk⟩, if_pos hjs]
        have hget : (h.linearized_interactions[kIndex (min s j)
            (max s j) n]?).getD 0 =
            h.linearized_interactions.getD (kIndex (min s j) (max s j) n)
              0 := (List.getD_eq_getElem?_getD ..).symm
        rw [hget, inv.lin_char (min s j) (max s j) hmm hmx]
        have hJ : Jbare ints (min s j) (max s j) = Jbare ints s j := by
          rcases Nat.lt_or_ge s j with hlt | hge
          · have h1 : min s j = s := by omega
            have h2 : max s j = j := by omega
            rw [h1, h2]
          · have h1 : min s j = j := by omega
            have h2 : max s j = s := by omega
            rw [h1, h2, Jbare_symm]
        rw [hJ]
        rfl
      · rw [if_neg (fun hc => hjs hc.1), if_neg hjs]
    rw [List.map_congr_left hterm]
    -- expand Jbare, push the factors inside, and exchange the two sums
    have hstep1 : ∀ j, (if j ≠ s then Jbare ints s j * sc * spinValue sp' j
        else 0) =
        (ints.map (fun t => if j ≠ s then
          (if pairMatches t s j then t.2.2 else 0) * sc * spinValue sp' j
          else 0)).sum := by
      intro j
      by_cases hjs : j ≠ s
      · rw [if_pos hjs]
        have hr : ∀ t ∈ ints, (if j ≠ s then
            (if pairMatches t s j then t.2.2 else 0) * sc *
              spinValue sp' j else 0) =
            (if pairMatches t s j then t.2.2 else 0) * sc *
              spinValue sp' j := fun t _ => if_pos hjs
        rw [List.map_congr_left hr]
        unfold Jbare
        rw [filter_map_sum_eq, sum_map_mul_right, sum_map_mul_right]
      · simp [hjs]
    rw [List.map_congr_left (fun j _ => hstep1 j), sum_exchange]
    -- evaluate the inner sum for each interaction term
    have hinner : ∀ t ∈ ints,
        ((List.range n).map (fun j => if j ≠ s then
          (if pairMatches t s j then t.2.2 else 0) * sc * spinValue sp' j
          else 0)).sum =
        (if t.1 = s then t.2.2 * sc * spinValue sp' t.2.1
         else if t.2.1 = s then t.2.2 * sc * spinValue sp' t.1
         else 0) := by
      intro t ht
      obtain ⟨ha, hb, hab⟩ := hidx t ht
      by_cases has : t.1 = s
      · rw [if_pos has]
        have hcong : ∀ j ∈ List.range n, (if j ≠ s then
            (if pairMatches t s j then t.2.2 else 0) * sc *
              spinValue sp' j else 0) =
            (if j = t.2.1 then t.2.2 * sc * spinValue sp' j else 0) := by
          intro j hj
          rw [List.mem_range] at hj
          by_cases hjb : j = t.2.1
          · subst hjb
            rw [if_pos rfl, if_pos (by omega),
              if_pos (by unfold pairMatches; omega)]
          · rw [if_neg hjb]
            by_cases hjs : j ≠ s
            · rw [if_pos hjs, if_neg (by unfold pairMatches; omega)]
              ring
            · rw [if_neg hjs]
        rw [List.map_congr_left hcong, sum_range_single n t.2.1 _ hb]
      · rw [if_neg has]
        by_cases hbs : t.2.1 = s
        · rw [if_pos hbs]
          have hcong : ∀ j ∈ List.range n, (if j ≠ s then
              (if pairMatches t s j then t.2.2 else 0) * sc *
                spinValue sp' j else 0) =
              (if j = t.1 then t.2.2 * sc * spinValue sp' j else 0) := by
            intro j hj
            rw [List.mem_range] at hj
            by_cases hja : j = t.1
            · subst hja
              rw [if_pos rfl, if_pos (by omega),
                if_pos (by unfold pairMatches; omega)]
            · rw [if_neg hja]
              by_cases hjs : j ≠ s
              · rw [if_pos hjs, if_neg (by unfold pairMatches; omega)]
                ring
              · rw [if_neg hjs]
          rw [List.map_congr_left hcong, sum_range_single n t.1 _ ha]
        · rw [if_neg hbs]
          have hcong : ∀ j ∈ List.range n, (if j ≠ s then
              (if pairMatches t s j then t.2.2 else 0) * sc *
                spinValue sp' j else 0) = 0 := by
            intro j hj
            by_cases hjs : j ≠ s
            · rw [if_pos hjs, if_neg (by unfold pairMatches; omega)]
              ring
            · rw [if_neg hjs]
          rw [List.map_congr_left hcong]
          simp
    rw [List.map_congr_left hinner, ← sum_map_add]
    -- per-interaction identity between old signed value plus delta and
    -- the new signed value
    congr 1
    apply List.map_congr_left
    intro t ht
    obtain ⟨ha, hb, hab⟩ := hidx t ht
    by_cases has : t.1 = s
    · subst has
      rw [if_pos rfl]
      have h2 : t.2.1 ≠ t.1 := fun hc => hab hc.symm
      rw [hsv_ne t.2.1 (by omega), hsc, hsv_s]
      have := hsv_ne t.2.1 (show t.2.1 ≠ t.1 by omega)
      ring
    · by_cases hbs : t.2.1 = s
      · subst hbs
        rw [if_neg has, if_pos rfl]
        rw [hsv_ne t.1 (by omega), hsc, hsv_s]
        ring
      · rw [if_neg has, if_neg hbs, hsv_ne t.1 (by omega),
          hsv_ne t.2.1 (by omega)]
        ring
  · -- the magnetic-field tree tracks the current field contributions
    intro i hi
    rw [flip_spin_magE, hspins]
    have hfs : h.external_magnetic_field[s]? = some (field.getD s 0) := by
      rw [inv.field_eq, List.getElem?_eq_getElem
        (by rw [inv.field_len]; exact hs)]
      rw [List.getD_eq_getElem?_getD, List.getElem?_eq_getElem
        (by rw [inv.field_len]; exact hs)]
      rfl
    rw [hfs]
    simp only
    rw [← hsp', ← hscdef, getD_addAt]
    by_cases his : i = s
    · subst his
      rw [if_pos ⟨rfl, by rw [inv.magE_len]; exact hi⟩,
        inv.magE_char i hi, hsc, hsv_s]
      ring
    · rw [if_neg (fun hc => his hc.1.symm), inv.magE_char i hi,
        hsv_ne i his]
      ring

/-! ## Gray-code bijectivity and the brute-force minimum -/

theorem grayCode_div_two (x : ℕ) : grayCode x / 2 = grayCode (x / 2) := by
  apply Nat.eq_of_testBit_eq
  intro k
  unfold grayCode
  rw [Nat.testBit_div_two, Nat.testBit_xor, Nat.testBit_xor,
    Nat.testBit_shiftRight, Nat.testBit_shiftRight, Nat.testBit_div_two,
    Nat.testBit_div_two, show 1 + (k + 1) = 1 + k + 1 from rfl]

theorem grayCode_injective : ∀ a b : ℕ, grayCode a = grayCode b → a = b := by
  intro a
  induction a using Nat.strong_induction_on with
  | _ a ih =>
    intro b h
    by_cases ha : a = 0
    · subst ha
      have h0 : grayCode b = 0 := by rw [← h]; rfl
      unfold grayCode at h0
      have hb : b = b >>> 1 := by
        have := Nat.xor_eq_zero.mp h0
        exact this
      rw [Nat.shiftRight_one] at hb
      omega
    · have h2 : grayCode (a / 2) = grayCode (b / 2) := by
        rw [← grayCode_div_two, ← grayCode_div_two, h]
      have hd : a / 2 = b / 2 := ih (a / 2) (by omega) (b / 2) h2
      have hp : Nat.testBit (grayCode a) 0 = Nat.testBit (grayCode b) 0 :=
        by rw [h]
      unfold grayCode at hp
      rw [Nat.testBit_xor, Nat.testBit_xor, Nat.testBit_shiftRight,
        Nat.testBit_shiftRight] at hp
      have hb1 : Nat.testBit a 1 = Nat.testBit b 1 := by
        rw [show (1 : ℕ) = 0 + 1 from rfl, ← Nat.testBit_div_two,
          ← Nat.testBit_div_two, hd]
      rw [show 1 + 0 = 1 from rfl, hb1] at hp
      have hb0 : Nat.testBit a 0 = Nat.testBit b 0 := by
        revert hp
        cases Nat.testBit a 0 <;> cases Nat.testBit b 0 <;>
          cases Nat.testBit b 1 <;> decide
      have h0 : a % 2 = b % 2 := by
        rw [Nat.testBit_zero, Nat.testBit_zero] at hb0
        have h2a : a % 2 = 0 ∨ a % 2 = 1 := by omega
        have h2b : b % 2 = 0 ∨ b % 2 = 1 := by omega
        rcases h2a with h2a | h2a
        · rcases h2b with h2b | h2b
          · omega
          · rw [h2a, h2b] at hb0
            simp at hb0
        · rcases h2b with h2b | h2b
          · rw [h2a, h2b] at hb0
            simp at hb0
          · omega
      omega

theorem grayCode_surj (n y : ℕ) (hy : y < 2 ^ n) :
    ∃ x, x < 2 ^ n ∧ grayCode x = y := by
  have hsub : (Finset.range (2 ^ n)).image grayCode ⊆
      Finset.range (2 ^ n) := by
    intro z hz
    rw [Finset.mem_image] at hz
    obtain ⟨x, hx, rfl⟩ := hz
    rw [Finset.mem_range] at hx ⊢
    exact grayCode_lt_two_pow hx
  have hcard : ((Finset.range (2 ^ n)).image grayCode).card =
      (Finset.range (2 ^ n)).card :=
    Finset.card_image_of_injOn (fun a _ b _ hab =>
      grayCode_injective a b hab)
  have heq : (Finset.range (2 ^ n)).image grayCode =
      Finset.range (2 ^ n) :=
    Finset.eq_of_subset_of_card_le hsub (by rw [hcard])
  have hmem : y ∈ (Finset.range (2 ^ n)).image grayCode := by
    rw [heq]
    exact Finset.mem_range.mpr hy
  rw [Finset.mem_image] at hmem
  obtain ⟨x, hx, hxy⟩ := hmem
  exact ⟨x, Finset.mem_range.mp hx, hxy⟩

/-- The global minimum of the Ising energy obtained by brute force over
all `2^n` spin configurations. -/
def bruteForceMinimumEnergy (ints : Interactions) (field : List ℚ) : ℚ :=
  ((List.range (2 ^ field.length)).map (fun y =>
    groundTruthEnergy ints field (bitsOf y field.length))).foldl min
    (groundTruthEnergy ints field (bitsOf 0 field.length))

theorem foldl_min_le (l : List ℚ) (a : ℚ) :
    l.foldl min a ≤ a ∧ ∀ x ∈ l, l.foldl min a ≤ x := by
  induction l generalizing a with
  | nil => exact ⟨le_refl a, by simp⟩
  | cons b l ih =>
      constructor
      · exact le_trans (ih (min a b)).1 (min_le_left a b)
      · intro x hx
        rcases List.mem_cons.mp hx with rfl | hx
        · exact le_trans (ih (min a x)).1 (min_le_right a x)
        · exact (ih (min a b)).2 x hx

theorem foldl_min_mem (l : List ℚ) (a : ℚ) :
    l.foldl min a = a ∨ l.foldl min a ∈ l := by
  induction l generalizing a with
  | nil => left; rfl
  | cons b l ih =>
      rcases ih (min a b) with h | h
      · rcases min_choice a b with hm | hm
        · left
          rw [List.foldl_cons, h, hm]
        · right
          rw [List.foldl_cons, h, hm]
          exact List.mem_cons_self ..
      · right
        exact List.mem_cons_of_mem _ h

theorem bruteMin_le (ints : Interactions) (field : List ℚ) (y : ℕ)
    (hy : y < 2 ^ field.length) :
    bruteForceMinimumEnergy ints field ≤
      groundTruthEnergy ints field (bitsOf y field.length) := by
  apply (foldl_min_le _ _).2
  exact List.mem_map_of_mem _ (List.mem_range.mpr hy)

theorem bruteMin_attained (ints : Interactions) (field : List ℚ) :
    ∃ y, y < 2 ^ field.length ∧ bruteForceMinimumEnergy ints field =
      groundTruthEnergy ints field (bitsOf y field.length) := by
  rcases foldl_min_mem ((List.range (2 ^ field.length)).map (fun y =>
    groundTruthEnergy ints field (bitsOf y field.length)))
    (groundTruthEnergy ints field (bitsOf 0 field.length)) with h | h
  · exact ⟨0, by positivity, h⟩
  · rw [List.mem_map] at h
    obtain ⟨y, hy, hEq⟩ := h
    exact ⟨y, List.mem_range.mp hy, hEq.symm⟩

/-! ## The Gray-code walk of `find_all_ground_states` -/

theorem epsF32_pos : (0 : ℚ) < epsF32 := by norm_num [epsF32]

theorem absQ_lt_iff (x ε : ℚ) : absQ x < ε ↔ -ε < x ∧ x < ε := by
  rw [absQ_eq_abs, abs_lt]

theorem absQ_zero : absQ 0 = 0 := rfl

theorem bitsOf_zero (n : ℕ) : bitsOf 0 n = List.replicate n false := by
  unfold bitsOf
  have h : ∀ u ∈ List.range n, Nat.testBit 0 u = false := by
    intro u _
    exact Nat.zero_testBit u
  rw [List.map_congr_left h]
  have haux : ∀ m : ℕ, (List.range m).map (fun _ => false) =
      List.replicate m false := by
    intro m
    induction m with
    | zero => rfl
    | succ m ihm =>
        rw [List.range_succ, List.map_append, ihm]
        simp [List.replicate_succ']
  exact haux n

/-- One exact-solver step, written out, when the Gray bit changes at
`t`. -/
theorem solveStep_eq_of_bit (st : SolveState) (i t : ℕ)
    (hb : bitPositionChanged (grayCode (i - 1)) (grayCode i) = some t) :
    solveStep st i =
      if absQ (current_energy (flip_spin st.ham t) - st.lowestEnergy) <
          epsF32 then
        { ham := flip_spin st.ham t, lowestEnergy := st.lowestEnergy
          groundStates := st.groundStates ++
            [(current_energy (flip_spin st.ham t),
              (flip_spin st.ham t).spins)] }
      else if current_energy (flip_spin st.ham t) < st.lowestEnergy then
        { ham := flip_spin st.ham t
          lowestEnergy := current_energy (flip_spin st.ham t)
          groundStates := [(current_energy (flip_spin st.ham t),
            (flip_spin st.ham t).spins)] }
      else
        { ham := flip_spin st.ham t, lowestEnergy := st.lowestEnergy
          groundStates := st.groundStates } := by
  simp only [solveStep, hb]

/-- The loop invariant of the Gray-code walk after processing step `k`:
the Hamiltonian invariant holds with the spins at Gray code `k`; the
running lowest energy is the energy of some visited state and is within
`ε` above every visited energy; every recorded pair is a visited state
with its exact energy, within `ε` of the running lowest; some recorded
pair attains the running lowest; and as soon as a visited state attains
the brute-force minimum, some recorded pair has exactly that energy. -/
structure WalkInv (ints : Interactions) (field : List ℚ) (n k : ℕ)
    (st : SolveState) : Prop where
  hamInv : HamInv ints field n st.ham
  spins_eq : st.ham.spins = bitsOf (grayCode k) n
  lowest_visited : ∃ m ≤ k, st.lowestEnergy =
    groundTruthEnergy ints field (bitsOf (grayCode m) n)
  lowest_le : ∀ m ≤ k, st.lowestEnergy ≤
    groundTruthEnergy ints field (bitsOf (grayCode m) n) + epsF32
  gs_char : ∀ p ∈ st.groundStates,
    (∃ m ≤ k, p.2 = bitsOf (grayCode m) n) ∧
    p.1 = groundTruthEnergy ints field p.2 ∧
    absQ (p.1 - st.lowestEnergy) < epsF32
  gs_lowest : ∃ p ∈ st.groundStates, p.1 = st.lowestEnergy
  gs_min : (∃ m ≤ k, groundTruthEnergy ints field (bitsOf (grayCode m) n) =
      bruteForceMinimumEnergy ints field) →
    ∃ p ∈ st.groundStates, p.1 = bruteForceMinimumEnergy ints field

theorem walkInv_base (ints : Interactions) (field : List ℚ) (n : ℕ)
    (h₀ : TwoLocalHamiltonian) (hinv : HamInv ints field n h₀)
    (hspins : h₀.spins = List.replicate n false) :
    WalkInv ints field n 0
      { ham := h₀, lowestEnergy := current_energy h₀
        groundStates := [(current_energy h₀, h₀.spins)] } := by
  have hbits : h₀.spins = bitsOf (grayCode 0) n := by
    rw [hspins, show grayCode 0 = 0 from rfl, bitsOf_zero]
  have hE : current_energy h₀ =
      groundTruthEnergy ints field (bitsOf (grayCode 0) n) := by
    rw [current_energy_eq_groundTruth ints field n h₀ hinv, hbits]
  refine ⟨hinv, hbits, ⟨0, le_refl 0, hE⟩, ?_, ?_, ?_, ?_⟩
  · intro m hm
    have hm0 : m = 0 := by omega
    subst hm0
    rw [hE]
    have := epsF32_pos
    linarith
  · intro p hp
    rw [List.mem_singleton] at hp
    subst hp
    refine ⟨⟨0, le_refl 0, hbits⟩, ?_, ?_⟩
    · rw [hbits, hE]
    · rw [sub_self, absQ_zero]
      exact epsF32_pos
  · exact ⟨(current_energy h₀, h₀.spins), List.mem_singleton_self _, rfl⟩
  · intro hmin
    obtain ⟨m, hm, hmE⟩ := hmin
    have hm0 : m = 0 := by omega
    subst hm0
    exact ⟨(current_energy h₀, h₀.spins), List.mem_singleton_self _,
      by rw [hE, hmE]⟩

theorem walkInv_step (ints : Interactions) (field : List ℚ) (n : ℕ)
    (hidx : ∀ t ∈ ints, t.1 < n ∧ t.2.1 < n ∧ t.1 ≠ t.2.1)
    (hfn : field.length = n) (k : ℕ) (st : SolveState)
    (w : WalkInv ints field n k st) (hk : k + 1 < 2 ^ n) :
    WalkInv ints field n (k + 1) (solveStep st (k + 1)) := by
  have h1 : 1 ≤ k + 1 := by omega
  set t := trailingZeros (k + 1) with htdef
  have ht : t < n := trailingZeros_lt_of_lt n (k + 1) h1 hk
  have hb : bitPositionChanged (grayCode (k + 1 - 1)) (grayCode (k + 1)) =
      some t := bitPositionChanged_gray (k + 1) h1
  have hinv' : HamInv ints field n (flip_spin st.ham t) :=
    w.hamInv.flip hidx t ht
  have hspins' : (flip_spin st.ham t).spins = bitsOf (grayCode (k + 1)) n := by
    rw [flip_spin_spins, w.spins_eq, bitsOf_gray_step n (k + 1) h1 hk]
    rfl
  have hE : current_energy (flip_spin st.ham t) =
      groundTruthEnergy ints field (bitsOf (grayCode (k + 1)) n) := by
    rw [current_energy_eq_groundTruth ints field n _ hinv', hspins']
  set e := current_energy (flip_spin st.ham t) with hedef
  set L := st.lowestEnergy with hLdef
  rw [solveStep_eq_of_bit st (k + 1) t hb]
  have hM_le : ∀ m, m < 2 ^ n → bruteForceMinimumEnergy ints field ≤
      groundTruthEnergy ints field (bitsOf (grayCode m) n) := by
    intro m hm
    have := bruteMin_le ints field (grayCode m)
      (by rw [hfn]; exact grayCode_lt_two_pow hm)
    rw [hfn] at this
    exact this
  by_cases hc1 : absQ (e - L) < epsF32
  · rw [if_pos hc1]
    have habs := (absQ_lt_iff _ _).mp hc1
    refine ⟨hinv', hspins', ?_, ?_, ?_, ?_, ?_⟩
    · obtain ⟨m, hm, hmE⟩ := w.lowest_visited
      exact ⟨m, by omega, hmE⟩
    · intro m hm
      rcases Nat.lt_or_ge m (k + 1) with hmk | hmk
      · exact w.lowest_le m (by omega)
      · have hmk1 : m = k + 1 := by omega
        subst hmk1
        rw [← hE]
        linarith [habs.2]
    · intro p hp
      rcases List.mem_append.mp hp with hp | hp
      · obtain ⟨⟨m, hm, hms⟩, hpe, hpa⟩ := w.gs_char p hp
        exact ⟨⟨m, by omega, hms⟩, hpe, hpa⟩
      · rw [List.mem_singleton] at hp
        subst hp
        refine ⟨⟨k + 1, le_refl _, hspins'⟩, ?_, hc1⟩
        show current_energy (flip_spin st.ham t) =
          groundTruthEnergy ints field (flip_spin st.ham t).spins
        rw [hspins', ← hedef, hE]
    · obtain ⟨p, hp, hpe⟩ := w.gs_lowest
      exact ⟨p, List.mem_append_left _ hp, hpe⟩
    · intro hmin
      obtain ⟨m, hm, hmE⟩ := hmin
      rcases Nat.lt_or_ge m (k + 1) with hmk | hmk
      · obtain ⟨p, hp, hpe⟩ := w.gs_min ⟨m, by omega, hmE⟩
        exact ⟨p, List.mem_append_left _ hp, hpe⟩
      · have hmk1 : m = k + 1 := by omega
        subst hmk1
        refine ⟨(e, (flip_spin st.ham t).spins),
          List.mem_append_right _ (List.mem_singleton_self _), ?_⟩
        show e = bruteForceMinimumEnergy ints field
        rw [hE, hmE]
  · rw [if_neg hc1]
    have habs : epsF32 ≤ absQ (e - L) := le_of_not_lt hc1
    by_cases hc2 : e < L
    · rw [if_pos hc2]
      have hgap : e + epsF32 ≤ L := by
        rw [absQ_eq_abs] at habs
        rcases abs_cases (e - L) with ⟨hh, _⟩ | ⟨hh, _⟩
        · linarith
        · linarith
      refine ⟨hinv', hspins', ⟨k + 1, le_refl _, hE⟩, ?_, ?_, ?_, ?_⟩
      · intro m hm
        rcases Nat.lt_or_ge m (k + 1) with hmk | hmk
        · have := w.lowest_le m (by omega)
          linarith
        · have hmk1 : m = k + 1 := by omega
          subst hmk1
          rw [← hE]
          linarith [epsF32_pos]
      · intro p hp
        rw [List.mem_singleton] at hp
        subst hp
        refine ⟨⟨k + 1, le_refl _, hspins'⟩, ?_, ?_⟩
        · show e = groundTruthEnergy ints field (flip_spin st.ham t).spins
          rw [hspins', hE]
        · show absQ (e - e) < epsF32
          rw [sub_self, absQ_zero]
          exact epsF32_pos
      · exact ⟨(e, (flip_spin st.ham t).spins),
          List.mem_singleton_self _, rfl⟩
      · intro hmin
        obtain ⟨m, hm, hmE⟩ := hmin
        refine ⟨(e, (flip_spin st.ham t).spins),
          List.mem_singleton_self _, ?_⟩
        rcases Nat.lt_or_ge m (k + 1) with hmk | hmk
        · -- a previously visited state attains the minimum: the new
          -- strictly lower energy must equal it exactly
          have hlow := w.lowest_le m (by omega)
          rw [hmE] at hlow
          have hMe : bruteForceMinimumEnergy ints field ≤ e := by
            rw [hE]
            exact hM_le (k + 1) hk
          linarith
        · have hmk1 : m = k + 1 := by omega
          subst hmk1
          show e = bruteForceMinimumEnergy ints field
          rw [hE, hmE]
    · rw [if_neg hc2]
      have hLe : L ≤ e := le_of_not_lt hc2
      refine ⟨hinv', hspins', ?_, ?_, ?_, w.gs_lowest, ?_⟩
      · obtain ⟨m, hm, hmE⟩ := w.lowest_visited
        exact ⟨m, by omega, hmE⟩
      · intro m hm
        rcases Nat.lt_or_ge m (k + 1) with hmk | hmk
        · exact w.lowest_le m (by omega)
        · have hmk1 : m = k + 1 := by omega
          subst hmk1
          rw [← hE]
          linarith [epsF32_pos]
      · intro p hp
        obtain ⟨⟨m, hm, hms⟩, hpe, hpa⟩ := w.gs_char p hp
        exact ⟨⟨m, by omega, hms⟩, hpe, hpa⟩
      · intro hmin
        obtain ⟨m, hm, hmE⟩ := hmin
        rcases Nat.lt_or_ge m (k + 1) with hmk | hmk
        · exact w.gs_min ⟨m, by omega, hmE⟩
        · have hmk1 : m = k + 1 := by omega
          subst hmk1
          -- the new state attains the minimum but is not better than the
          -- running lowest: the running lowest is itself the minimum
          obtain ⟨m₀, hm₀, hm₀E⟩ := w.lowest_visited
          have hMleL : bruteForceMinimumEnergy ints field ≤ L := by
            rw [hLdef, hm₀E]
            exact hM_le m₀ (by omega)
          have hLeM : L ≤ bruteForceMinimumEnergy ints field := by
            rw [← hmE, ← hE]
            exact hLe
          obtain ⟨p, hp, hpe⟩ := w.gs_lowest
          exact ⟨p, hp, by rw [hpe]; linarith⟩

/-- `from_compact_state_to_state` is the identity on the boolean-list
model of the bit-set. -/
theorem fromCompactStateToState_eq (l : List Bool) :
    fromCompactStateToState l = l := by
  unfold fromCompactStateToState
  apply List.ext_getElem
  · simp
  · intro i h1 h2
    simp only [List.getElem_map, List.getElem_range]
    exact List.getD_eq_getElem l false h2

theorem map_fromCompact_id (gs : List (ℚ × List Bool)) :
    gs.map (fun p => (p.1, fromCompactStateToState p.2)) = gs := by
  induction gs with
  | nil => rfl
  | cons p gs ih => rw [List.map_cons, ih, fromCompactStateToState_eq]

/-- The walk invariant holds after every prefix of the Gray-code loop. -/
theorem walkInv_run (ints : Interactions) (field : List ℚ) (n : ℕ)
    (hidx : ∀ t ∈ ints, t.1 < n ∧ t.2.1 < n ∧ t.1 ≠ t.2.1)
    (hfn : field.length = n) (h₀ : TwoLocalHamiltonian)
    (hinv : HamInv ints field n h₀)
    (hspins : h₀.spins = List.replicate n false) :
    ∀ k, k < 2 ^ n →
      WalkInv ints field n k ((List.range' 1 k).foldl solveStep
        { ham := h₀, lowestEnergy := current_energy h₀
          groundStates := [(current_energy h₀, h₀.spins)] }) := by
  intro k
  induction k with
  | zero =>
      intro _
      exact walkInv_base ints field n h₀ hinv hspins
  | succ k ih =>
      intro hk
      have hrange : List.range' 1 (k + 1) = List.range' 1 k ++ [1 + 1 * k] :=
        List.range'_concat 1 k
      have h1k : 1 + 1 * k = k + 1 := by omega
      rw [h1k] at hrange
      rw [hrange, List.foldl_append, List.foldl_cons, List.foldl_nil]
      exact walkInv_step ints field n hidx hfn k _ (ih (by omega)) hk

/-- **C2** (corrected).  Exact-solver soundness holds only up to the
`f32::EPSILON` tolerance of the recording test (solvers.rs line 74): for
every valid `(interactions, field)` input, `find_all_ground_states`
succeeds and (i) every returned pair carries the exact from-scratch Ising
energy of its returned state, (ii) every returned energy lies in
`[M, M + 2ε)` where `M` is the brute-force minimum over all `2^n` states
and `ε = f32::EPSILON`, (iii) at least one returned pair attains `M`
exactly, and (iv) any two returned energies agree within `2ε` — but they
need not be equal, and need not all equal `M` (see the counterexample). -/
theorem C2_ground_states_within_epsilon_of_minimum
    (ints : Interactions) (field : List ℚ) (m : ℕ)
    (hmax : (interactionIndices ints).max? = some m)
    (hfl : field.length = m + 1)
    (hidx : ∀ t ∈ ints, t.1 < m + 1 ∧ t.2.1 < m + 1 ∧ t.1 ≠ t.2.1)
    (hnodup : noDuplicatePairs ints) :
    ∃ res, find_all_ground_states ints field = .ok res ∧
      (∀ p ∈ res, p.1 = groundTruthEnergy ints field p.2) ∧
      (∀ p ∈ res, bruteForceMinimumEnergy ints field ≤ p.1 ∧
        p.1 < bruteForceMinimumEnergy ints field + 2 * epsF32) ∧
      (∃ p ∈ res, p.1 = bruteForceMinimumEnergy ints field) ∧
      (∀ p ∈ res, ∀ q ∈ res, absQ (p.1 - q.1) < 2 * epsF32) := by
  obtain ⟨h₀, hnew, hspins0, hinv⟩ :=
    new_ok_of_valid ints field m hmax hfl hidx hnodup
  have hrun : find_all_ground_states ints field =
      .ok (((List.range' 1 (2 ^ field.length - 1)).foldl solveStep
        { ham := h₀, lowestEnergy := current_energy h₀
          groundStates :=
            [(current_energy h₀, h₀.spins)] }).groundStates) := by
    simp only [find_all_ground_states, hnew, Except.map]
    rw [map_fromCompact_id]
  rw [hfl] at hrun
  have hpow : 0 < 2 ^ (m + 1) := by positivity
  have hK : 2 ^ (m + 1) - 1 < 2 ^ (m + 1) := by omega
  have hw := walkInv_run ints field (m + 1) hidx hfl h₀ hinv hspins0
    (2 ^ (m + 1) - 1) hK
  set final := (List.range' 1 (2 ^ (m + 1) - 1)).foldl solveStep
      { ham := h₀, lowestEnergy := current_energy h₀
        groundStates := [(current_energy h₀, h₀.spins)] } with hfinal
  have hble : ∀ y, y < 2 ^ (m + 1) →
      bruteForceMinimumEnergy ints field ≤
        groundTruthEnergy ints field (bitsOf y (m + 1)) := by
    intro y hy
    have h := bruteMin_le ints field y (by rw [hfl]; exact hy)
    rw [hfl] at h
    exact h
  have hbatt : ∃ y, y < 2 ^ (m + 1) ∧ bruteForceMinimumEnergy ints field =
      groundTruthEnergy ints field (bitsOf y (m + 1)) := by
    obtain ⟨y, hy, hE⟩ := bruteMin_attained ints field
    rw [hfl] at hy hE
    exact ⟨y, hy, hE⟩
  have hsurj : ∀ y, y < 2 ^ (m + 1) →
      ∃ j, j ≤ 2 ^ (m + 1) - 1 ∧ grayCode j = y := by
    intro y hy
    obtain ⟨x, hx, hxy⟩ := grayCode_surj (m + 1) y hy
    exact ⟨x, by omega, hxy⟩
  have hML : bruteForceMinimumEnergy ints field ≤ final.lowestEnergy := by
    obtain ⟨j, hj, hLE⟩ := hw.lowest_visited
    rw [hLE]
    exact hble (grayCode j) (grayCode_lt_two_pow (by omega))
  have hLM : final.lowestEnergy ≤
      bruteForceMinimumEnergy ints field + epsF32 := by
    obtain ⟨y, hy, hyE⟩ := hbatt
    obtain ⟨j, hj, hjy⟩ := hsurj y hy
    have h := hw.lowest_le j hj
    rw [hjy] at h
    rw [hyE]
    exact h
  refine ⟨final.groundStates, hrun, ?_, ?_, ?_, ?_⟩
  · intro p hp
    exact (hw.gs_char p hp).2.1
  · intro p hp
    obtain ⟨⟨j, hj, hps⟩, hpe, hpa⟩ := hw.gs_char p hp
    obtain ⟨h1, h2⟩ := (absQ_lt_iff _ _).mp hpa
    constructor
    · rw [hpe, hps]
      exact hble (grayCode j) (grayCode_lt_two_pow (by omega))
    · linarith
  · apply hw.gs_min
    obtain ⟨y, hy, hyE⟩ := hbatt
    obtain ⟨j, hj, hjy⟩ := hsurj y hy
    refine ⟨j, hj, ?_⟩
    rw [hjy, ← hyE]
  · intro p hp q hq
    obtain ⟨hp1, hp2⟩ := (absQ_lt_iff _ _).mp (hw.gs_char p hp).2.2
    obtain ⟨hq1, hq2⟩ := (absQ_lt_iff _ _).mp (hw.gs_char q hq).2.2
    rw [absQ_lt_iff]
    constructor
    · linarith
    · linarith

set_option maxRecDepth 100000 in
/-- **C2 counterexample.**  The claim as stated fails on the code at the
explicit input `interactions = [(0,1,0.0)]`,
`field = [2^(−25), 0.0]` (all values exactly representable in `f32`, so
the rational model reproduces the machine computation): the solver
returns four pairs whose energies are `2^(−25)` and `−2^(−25)` — not all
equal — and the energy `2^(−25)` of the first returned pair differs from
the brute-force minimum `−2^(−25)`; the `< f32::EPSILON` recording test
accepts any state within `2^(−23)` of the running lowest energy. -/
theorem C2_equal_energy_counterexample :
    find_all_ground_states [(0, 1, 0)] [1 / 33554432, 0] =
      .ok [(1 / 33554432, [false, false]),
        (-(1 / 33554432), [true, false]),
        (-(1 / 33554432), [true, true]),
        (1 / 33554432, [false, true])] ∧
    bruteForceMinimumEnergy [(0, 1, 0)] [1 / 33554432, 0] =
      -(1 / 33554432) ∧
    (1 : ℚ) / 33554432 ≠ -(1 / 33554432) := by
  refine ⟨?_, ?_, ?_⟩
  · with_unfolding_all rfl
  · with_unfolding_all rfl
  · norm_num

/-- C2 witness: the corrected theorem applied to the COPY gate
`interactions = [(0,1,1.0)]`, `field = [0.0, 0.0]`. -/
theorem C2_ground_states_within_epsilon_of_minimum_witness :
    ∃ res, find_all_ground_states [(0, 1, 1)] [0, 0] = .ok res ∧
      (∀ p ∈ res, p.1 = groundTruthEnergy [(0, 1, 1)] [0, 0] p.2) ∧
      (∀ p ∈ res, bruteForceMinimumEnergy [(0, 1, 1)] [0, 0] ≤ p.1 ∧
        p.1 < bruteForceMinimumEnergy [(0, 1, 1)] [0, 0] + 2 * epsF32) ∧
      (∃ p ∈ res, p.1 = bruteForceMinimumEnergy [(0, 1, 1)] [0, 0]) ∧
      (∀ p ∈ res, ∀ q ∈ res, absQ (p.1 - q.1) < 2 * epsF32) :=
  C2_ground_states_within_epsilon_of_minimum [(0, 1, 1)] [0, 0] 1
    (by with_unfolding_all decide) (by decide) (by decide) (by decide)

end Ernst

